import Mathlib

/-!
# Verification of the nemo QC numeric helpers

Shallow embedding of the numeric and log-parsing utility functions of the
nemo repository (`utils.py`, `anat/qc_freesurfer.py`, `anat/run_freesurfer.py`,
`rsfmri/qc_fmriprep_metrics_extractions.py`), together with theorems settling
the specification claims about them.

Arrays are modelled as lists of rationals (`List ℚ`): numpy float arrays are
embedded with exact arithmetic, element order being the flattened (C-order)
traversal.  A numpy `nan` result is modelled as `Option.none`.  Strings are
handled through their character lists.  Filesystem access is modelled by an
explicit record of directory listings and file contents passed as an argument.
-/

namespace Nemo

/-! ## `dice` (utils.py lines 291-311, identical copy in
`rsfmri/qc_fmriprep_metrics_extractions.py` lines 69-89) -/

/-- numpy `astype(bool)` applied to one element: nonzero becomes `True`. -/
def pyBool (x : ℚ) : Bool := x ≠ 0

/-- Embedding of `utils.dice`:

```python
a = a.astype(bool)
b = b.astype(bool)
inter = np.logical_and(a, b).sum()
s = a.sum() + b.sum()
return (2 * inter / s) if s > 0 else np.nan
```

Same-shape arrays are embedded as equally long flattened lists; elementwise
`logical_and` is a `zip`; `.sum()` of a boolean array counts its `True`
entries; the `np.nan` branch is `none`. -/
def dice (a b : List ℚ) : Option ℚ :=
  let ab := a.map pyBool
  let bb := b.map pyBool
  let inter := ((ab.zip bb).countP (fun p => p.1 && p.2))
  let s := ab.countP id + bb.countP id
  if 0 < s then some (2 * inter / s) else none

/-- Claim-side count: number of positions at which both arrays cast to `True`
(the cardinality `|A∩B|` of the intersection of the two masks). -/
def interCount (a b : List ℚ) : ℕ :=
  (List.range a.length).countP (fun i => pyBool (a.getD i 0) && pyBool (b.getD i 0))

/-- Claim-side count: number of positions at which the array casts to `True`
(the cardinality `|A|` of the mask). -/
def trueCount (a : List ℚ) : ℕ := a.countP pyBool

lemma countP_zip_eq_range (q : ℚ → ℚ → Bool) :
    ∀ (a b : List ℚ), a.length = b.length →
      (a.zip b).countP (fun p => q p.1 p.2) =
        (List.range a.length).countP (fun i => q (a.getD i 0) (b.getD i 0)) := by
  intro a
  induction a with
  | nil => intro b _; rfl
  | cons x a ih =>
      intro b hb
      cases b with
      | nil => simp at hb
      | cons y b =>
          simp only [List.length_cons, Nat.succ.injEq] at hb
          have hrange : List.range (x :: a).length = 0 :: (List.range a.length).map Nat.succ := by
            simpa [List.length_cons] using List.range_succ_eq_map a.length
          rw [hrange]
          simp only [List.zip_cons_cons, List.countP_cons, List.countP_map]
          have hP : ((fun i => q ((x :: a).getD i 0) ((y :: b).getD i 0)) ∘ Nat.succ)
              = (fun i => q (a.getD i 0) (b.getD i 0)) := rfl
          rw [hP, ih b hb]
          rfl

lemma trueCount_eq_countP_map (a : List ℚ) :
    (a.map pyBool).countP id = trueCount a := by
  rw [List.countP_map]
  rfl

lemma interCount_eq (a b : List ℚ) (hlen : a.length = b.length) :
    ((a.map pyBool).zip (b.map pyBool)).countP (fun p => p.1 && p.2) = interCount a b := by
  rw [List.zip_map, List.countP_map]
  have := countP_zip_eq_range (fun u v => pyBool u && pyBool v) a b hlen
  simpa [Function.comp, interCount] using this

/-- C1: for same-shape arrays with `|A| + |B| > 0`, `dice a b` returns the
overlap ratio `2·|A∩B| / (|A| + |B|)` of the two boolean masks. -/
theorem dice_overlap_ratio (a b : List ℚ) (hlen : a.length = b.length)
    (hs : 0 < trueCount a + trueCount b) :
    dice a b =
      some (2 * (interCount a b : ℚ) / ((trueCount a : ℚ) + (trueCount b : ℚ))) := by
  simp only [dice, interCount_eq a b hlen, trueCount_eq_countP_map]
  rw [if_pos hs]
  push_cast
  ring_nf

/-- Witness for C1 at `a = [1, 0], b = [1, 1]`: both masks overlap at one
position, `|A| = 1`, `|B| = 2`, and the result is `2·1/3`. -/
theorem dice_overlap_ratio_witness :
    ([(1 : ℚ), 0].length = [(1 : ℚ), 1].length ∧
      0 < trueCount [(1 : ℚ), 0] + trueCount [(1 : ℚ), 1]) ∧
    dice [(1 : ℚ), 0] [(1 : ℚ), 1] =
      some (2 * (interCount [(1 : ℚ), 0] [(1 : ℚ), 1] : ℚ) /
        ((trueCount [(1 : ℚ), 0] : ℚ) + (trueCount [(1 : ℚ), 1] : ℚ))) :=
  ⟨⟨by decide, by decide⟩,
    dice_overlap_ratio [(1 : ℚ), 0] [(1 : ℚ), 1] (by decide) (by decide)⟩

/-- C9: when both arrays cast to all-`False` masks, the division in `dice` is
guarded by `s > 0` and the function returns NaN (modelled `none`): no division
by zero takes place. -/
theorem dice_all_false (a b : List ℚ)
    (ha : ∀ x ∈ a, pyBool x = false) (hb : ∀ x ∈ b, pyBool x = false) :
    dice a b = none := by
  have hca : (a.map pyBool).countP id = 0 := by
    rw [List.countP_eq_zero]
    intro c hc
    rcases List.mem_map.mp hc with ⟨x, hx, rfl⟩
    simp [ha x hx]
  have hcb : (b.map pyBool).countP id = 0 := by
    rw [List.countP_eq_zero]
    intro c hc
    rcases List.mem_map.mp hc with ⟨x, hx, rfl⟩
    simp [hb x hx]
  simp [dice, hca, hcb]

/-- Witness for C9 at `a = [0, 0], b = [0]`: both masks are all-`False` and
`dice` returns `none` (NaN). -/
theorem dice_all_false_witness :
    (∀ x ∈ [(0 : ℚ), 0], pyBool x = false) ∧ (∀ x ∈ [(0 : ℚ)], pyBool x = false) ∧
      dice [(0 : ℚ), 0] [(0 : ℚ)] = none :=
  ⟨by decide, by decide, dice_all_false [(0 : ℚ), 0] [(0 : ℚ)] (by decide) (by decide)⟩

/-! ## `resample` (utils.py lines 314-323)

```python
def resample(low_res_image, high_res_image):
    from scipy.ndimage import zoom
    target_shape = high_res_image.shape
    zoom_factors = [target_shape[i] / low_res_image.shape[i] for i in range(3)]
    return zoom(low_res_image, zoom_factors, mode='nearest')
```

The images are represented by their 3-D shapes and the function by the
configuration of the `scipy.ndimage.zoom` call it performs. -/

/-- Configuration of a `scipy.ndimage.zoom(input, zoom, order=3,
mode='constant', ...)` call: the per-dimension zoom factors, the spline
interpolation `order` (0 selects nearest-neighbor interpolation, the default
3 selects cubic-spline interpolation) and the boundary-extension `mode`
(which only chooses how the input is extended beyond its edges). -/
structure ZoomCall where
  factors : List ℚ
  order : ℕ
  mode : String
deriving DecidableEq

/-- The default spline interpolation order of `scipy.ndimage.zoom`, used when
the call passes no `order` argument. -/
def scipyZoomDefaultOrder : ℕ := 3

/-- The output shape `scipy.ndimage.zoom` produces:
`round(input.shape[i] * zoom[i])` in each dimension.  The arithmetic here is
exact rational arithmetic; the products that occur below are integers, so the
tie-breaking convention of `round` is immaterial. -/
def zoomOutShape (inShape : List ℕ) (factors : List ℚ) : List ℤ :=
  (inShape.zip factors).map (fun p => round ((p.1 : ℚ) * p.2))

/-- Embedding of `utils.resample`: the zoom call it performs on the
low-resolution image.  The factors are `target_shape[i] /
low_res_image.shape[i]` for `i in range(3)`; `order` is left at scipy's
default and `mode='nearest'` is passed. -/
def resample (lowShape highShape : List ℕ) : ZoomCall :=
  { factors := (List.range 3).map
      (fun i => (highShape.getD i 0 : ℚ) / (lowShape.getD i 0 : ℚ))
    order := scipyZoomDefaultOrder
    mode := "nearest" }

/-- A `scipy.ndimage.zoom` call rescales with nearest-neighbor interpolation
exactly when its spline order is 0. -/
def usesNearestNeighbor (z : ZoomCall) : Prop := z.order = 0

instance (z : ZoomCall) : Decidable (usesNearestNeighbor z) := by
  unfold usesNearestNeighbor
  infer_instance

/-- C2 counterexample: at the concrete shapes `[2, 2, 2]` and `[4, 4, 4]`,
the zoom call performed by `resample` does not use nearest-neighbor
interpolation — its spline order is scipy's default 3 (cubic), since
`mode='nearest'` only sets the boundary-extension mode. -/
theorem resample_not_nearest_neighbor :
    ¬ usesNearestNeighbor (resample [2, 2, 2] [4, 4, 4]) := by decide

/-- C2 amended: `resample` rescales the low-resolution image to the shape of
the high-resolution image with zoom factor `target extent / source extent` in
each of the three dimensions, using cubic-spline interpolation (scipy's
default order 3, not nearest-neighbor) with `'nearest'` boundary-extension
mode. -/
theorem resample_call (low high : List ℕ) (hl : low.length = 3)
    (hh : high.length = 3) (hpos : ∀ n ∈ low, 0 < n) :
    (resample low high).factors =
      [(high.getD 0 0 : ℚ) / (low.getD 0 0 : ℚ),
       (high.getD 1 0 : ℚ) / (low.getD 1 0 : ℚ),
       (high.getD 2 0 : ℚ) / (low.getD 2 0 : ℚ)] ∧
    (resample low high).order = 3 ∧
    (resample low high).mode = "nearest" ∧
    zoomOutShape low (resample low high).factors = high.map (fun n => (n : ℤ)) := by
  rcases List.length_eq_three.mp hl with ⟨l0, l1, l2, rfl⟩
  rcases List.length_eq_three.mp hh with ⟨h0, h1, h2, rfl⟩
  refine ⟨rfl, rfl, rfl, ?_⟩
  have e0 : (l0 : ℚ) ≠ 0 := by exact_mod_cast (hpos l0 (by simp)).ne'
  have e1 : (l1 : ℚ) ≠ 0 := by exact_mod_cast (hpos l1 (by simp)).ne'
  have e2 : (l2 : ℚ) ≠ 0 := by exact_mod_cast (hpos l2 (by simp)).ne'
  show [round ((l0 : ℚ) * ((h0 : ℚ) / (l0 : ℚ))),
        round ((l1 : ℚ) * ((h1 : ℚ) / (l1 : ℚ))),
        round ((l2 : ℚ) * ((h2 : ℚ) / (l2 : ℚ)))] = [(h0 : ℤ), (h1 : ℤ), (h2 : ℤ)]
  rw [mul_comm (l0 : ℚ), div_mul_cancel₀ _ e0, mul_comm (l1 : ℚ),
    div_mul_cancel₀ _ e1, mul_comm (l2 : ℚ), div_mul_cancel₀ _ e2]
  simp [round_natCast]

/-- Witness for the amended C2 at `low = [1, 2, 4]`, `high = [2, 3, 4]`. -/
theorem resample_call_witness :
    (([1, 2, 4] : List ℕ).length = 3 ∧ ([2, 3, 4] : List ℕ).length = 3 ∧
      (∀ n ∈ ([1, 2, 4] : List ℕ), 0 < n)) ∧
    ((resample [1, 2, 4] [2, 3, 4]).factors =
      [((([2, 3, 4] : List ℕ).getD 0 0 : ℚ) / (([1, 2, 4] : List ℕ).getD 0 0 : ℚ)),
       ((([2, 3, 4] : List ℕ).getD 1 0 : ℚ) / (([1, 2, 4] : List ℕ).getD 1 0 : ℚ)),
       ((([2, 3, 4] : List ℕ).getD 2 0 : ℚ) / (([1, 2, 4] : List ℕ).getD 2 0 : ℚ))] ∧
     (resample [1, 2, 4] [2, 3, 4]).order = 3 ∧
     (resample [1, 2, 4] [2, 3, 4]).mode = "nearest" ∧
     zoomOutShape [1, 2, 4] (resample [1, 2, 4] [2, 3, 4]).factors =
       ([2, 3, 4] : List ℕ).map (fun n => (n : ℤ))) :=
  ⟨⟨by decide, by decide, by decide⟩,
    resample_call [1, 2, 4] [2, 3, 4] (by decide) (by decide) (by decide)⟩

/-! ## Python string primitives

Strings are handled through their character lists; `str.strip()` and
`str.split()` (no argument) act on ASCII whitespace. -/

/-- The whitespace characters recognised by Python's `str.strip()` and
`str.split()` (restricted to ASCII, which covers the strings at hand). -/
def pyIsSpace (c : Char) : Bool :=
  c = ' ' || c = '\t' || c = '\n' || c = '\r' || c = '\x0b' || c = '\x0c'

/-- Python `str.strip()`: remove leading and trailing whitespace. -/
def pyStrip (l : List Char) : List Char :=
  ((l.dropWhile pyIsSpace).reverse.dropWhile pyIsSpace).reverse

/-- Helper for `pySplit`: `cur` accumulates the current token in reverse. -/
def pySplitAux : List Char → List Char → List (List Char)
  | [], cur => if cur = [] then [] else [cur.reverse]
  | c :: rest, cur =>
      if pyIsSpace c then
        if cur = [] then pySplitAux rest []
        else cur.reverse :: pySplitAux rest []
      else pySplitAux rest (c :: cur)

/-- Python `str.split()` with no argument: split on runs of whitespace,
producing no empty tokens. -/
def pySplit (l : List Char) : List (List Char) := pySplitAux l []

lemma pySplitAux_ne_nil (l : List Char) :
    ∀ cur, cur ≠ [] → pySplitAux l cur ≠ [] := by
  induction l with
  | nil => intro cur h; simp [pySplitAux, h]
  | cons c rest ih =>
      intro cur h
      by_cases hc : pyIsSpace c
      · simp [pySplitAux, hc, h]
      · simpa [pySplitAux, hc] using ih (c :: cur) (by simp)

lemma pySplitAux_append_space (t : List Char) (ht : ∀ c ∈ t, pyIsSpace c) :
    ∀ cur, pySplitAux t cur = pySplitAux [] cur := by
  induction t with
  | nil => intro cur; rfl
  | cons c rest ih =>
      intro cur
      have hc : pyIsSpace c := ht c (by simp)
      have hrest : ∀ c ∈ rest, pyIsSpace c := fun d hd => ht d (by simp [hd])
      by_cases hcur : cur = []
      · subst hcur
        simp only [pySplitAux, hc, if_pos, if_true]
        rw [ih hrest []]
        rfl
      · simp only [pySplitAux, hc, if_true, if_neg hcur]
        rw [ih hrest []]
        simp [pySplitAux]

lemma pySplitAux_drop_trailing (m t : List Char) (ht : ∀ c ∈ t, pyIsSpace c) :
    ∀ cur, pySplitAux (m ++ t) cur = pySplitAux m cur := by
  induction m with
  | nil =>
      intro cur
      simpa using pySplitAux_append_space t ht cur
  | cons c rest ih =>
      intro cur
      by_cases hc : pyIsSpace c
      · by_cases hcur : cur = [] <;>
          simp [pySplitAux, hc, hcur, ih]
      · simp [pySplitAux, hc, ih]

lemma pySplitAux_drop_leading (l : List Char) :
    pySplitAux (l.dropWhile pyIsSpace) [] = pySplitAux l [] := by
  induction l with
  | nil => rfl
  | cons c rest ih =>
      by_cases hc : pyIsSpace c
      · simpa [List.dropWhile_cons, hc, pySplitAux] using ih
      · simp [List.dropWhile_cons, hc]

/-- Stripping whitespace leaves the whitespace-separated tokens unchanged. -/
lemma pySplit_pyStrip (l : List Char) : pySplit (pyStrip l) = pySplit l := by
  unfold pySplit pyStrip
  set d := l.dropWhile pyIsSpace with hd
  have hdecomp : d = (d.reverse.dropWhile pyIsSpace).reverse
      ++ (d.reverse.takeWhile pyIsSpace).reverse := by
    conv_lhs => rw [← List.reverse_reverse d]
    rw [← List.reverse_append, List.takeWhile_append_dropWhile]
  have ht : ∀ c ∈ (d.reverse.takeWhile pyIsSpace).reverse, pyIsSpace c := by
    intro c hc
    rw [List.mem_reverse] at hc
    exact List.mem_takeWhile_imp hc
  calc pySplitAux (d.reverse.dropWhile pyIsSpace).reverse []
      = pySplitAux ((d.reverse.dropWhile pyIsSpace).reverse
          ++ (d.reverse.takeWhile pyIsSpace).reverse) [] := by
        rw [pySplitAux_drop_trailing _ _ ht]
    _ = pySplitAux d [] := by rw [← hdecomp]
    _ = pySplitAux l [] := by rw [hd]; exact pySplitAux_drop_leading l

/-! ## `submit_job` (utils.py lines 121-158)

```python
try:
    result = subprocess.run(cmd, shell=True, check=True, text=True, capture_output=True)
    output = result.stdout.strip()
    if output.startswith("Submitted batch job"):
        job_id = output.split()[-1]
        return job_id
    else:
        return None
except subprocess.CalledProcessError as e:
    return None
```
-/

/-- Outcome of the `subprocess.run(cmd, shell=True, check=True, text=True,
capture_output=True)` call inside `submit_job`: the command's exit code and
its captured stdout. -/
structure ProcResult where
  exitCode : ℕ
  stdout : List Char

/-- Embedding of `utils.submit_job`.  A non-zero exit code makes
`subprocess.run(check=True)` raise `CalledProcessError`, which the function
catches and turns into `None`; otherwise the stripped stdout is inspected for
the `sbatch` success prefix and the last token is returned.  (`split()` of a
string starting with the non-empty prefix is never empty, so the `[-1]`
index is total; `getLastD` records that.) -/
def submit_job (r : ProcResult) : Option (List Char) :=
  if r.exitCode ≠ 0 then none
  else
    let output := pyStrip r.stdout
    if "Submitted batch job".toList.isPrefixOf output then
      some ((pySplit output).getLastD [])
    else none

/-- C7: `submit_job` returns the last whitespace-separated token of the
command's stdout exactly when the command exits with status 0 and its
stripped stdout starts with `"Submitted batch job"`, and `None` in every
other case; in the success case the token list is non-empty, so a last token
exists. -/
theorem submit_job_spec (r : ProcResult) :
    submit_job r =
      (if r.exitCode = 0 ∧ "Submitted batch job".toList <+: pyStrip r.stdout then
        some ((pySplit r.stdout).getLastD [])
      else none) ∧
    ("Submitted batch job".toList <+: pyStrip r.stdout → pySplit r.stdout ≠ []) := by
  constructor
  · unfold submit_job
    by_cases he : r.exitCode = 0
    · simp only [he, ne_eq, not_true_eq_false, if_false, true_and]
      by_cases hp : "Submitted batch job".toList <+: pyStrip r.stdout
      · rw [if_pos ((List.isPrefixOf_iff_prefix).mpr hp), if_pos hp, pySplit_pyStrip]
      · rw [if_neg (fun h => hp ((List.isPrefixOf_iff_prefix).mp h)), if_neg hp]
    · simp [he]
  · intro hp
    rcases hp with ⟨s, hs⟩
    rw [← pySplit_pyStrip]
    have : pyStrip r.stdout = 'S' :: ("ubmitted batch job".toList ++ s) := by
      rw [← hs]; rfl
    rw [this]
    have hne := pySplitAux_ne_nil ("ubmitted batch job".toList ++ s) ['S'] (by simp)
    simpa [pySplit, pySplitAux, show pyIsSpace 'S' = false by decide] using hne

/-- Witness for C7 at exit code 0 and stdout `"Submitted batch job 12345\n"`. -/
theorem submit_job_spec_witness :
    submit_job ⟨0, "Submitted batch job 12345\n".toList⟩ =
      (if (0 : ℕ) = 0 ∧ "Submitted batch job".toList <+:
          pyStrip "Submitted batch job 12345\n".toList then
        some ((pySplit "Submitted batch job 12345\n".toList).getLastD [])
      else none) ∧
    ("Submitted batch job".toList <+: pyStrip "Submitted batch job 12345\n".toList →
      pySplit "Submitted batch job 12345\n".toList ≠ []) :=
  submit_job_spec ⟨0, "Submitted batch job 12345\n".toList⟩

/-! ## `extract_runtime` (utils.py lines 180-197)

```python
timestamp_pattern = r"\d{6}-\d{2}:\d{2}:\d{2}"
timestamps = re.findall(timestamp_pattern, content)
if not timestamps:
    return 0
first_timestamp = datetime.strptime(timestamps[0], "%y%m%d-%H:%M:%S")
last_timestamp = datetime.strptime(timestamps[-1], "%y%m%d-%H:%M:%S")
runtime = last_timestamp - first_timestamp
return runtime
```
-/

/-- A string matched by the regex `\d{6}-\d{2}:\d{2}:\d{2}`, recorded as its
six two-digit numeric fields `yymmdd-hh:mi:ss`. -/
structure RawTs where
  yy : ℕ
  mm : ℕ
  dd : ℕ
  hh : ℕ
  mi : ℕ
  ss : ℕ
deriving DecidableEq

/-- Numeric value of a two-digit group. -/
def digit2 (a b : Char) : ℕ := (a.toNat - '0'.toNat) * 10 + (b.toNat - '0'.toNat)

/-- Match the regex `\d{6}-\d{2}:\d{2}:\d{2}` against the first 15 characters
of the list. -/
def tsAt (l : List Char) : Option RawTs :=
  match l.take 15 with
  | [y1, y2, m1, m2, d1, d2, c1, h1, h2, c2, i1, i2, c3, s1, s2] =>
      if (y1.isDigit && y2.isDigit && m1.isDigit && m2.isDigit &&
          d1.isDigit && d2.isDigit && h1.isDigit && h2.isDigit &&
          i1.isDigit && i2.isDigit && s1.isDigit && s2.isDigit) &&
          (c1 = '-' && c2 = ':' && c3 = ':') then
        some ⟨digit2 y1 y2, digit2 m1 m2, digit2 d1 d2,
              digit2 h1 h2, digit2 i1 i2, digit2 s1 s2⟩
      else none
  | _ => none

/-- Helper for `findTimestamps`: `skip` counts characters still covered by
the previous match (`re.findall` resumes scanning after a match, making the
matches non-overlapping). -/
def findTsAux : List Char → ℕ → List RawTs
  | [], _ => []
  | _ :: rest, skip + 1 => findTsAux rest skip
  | c :: rest, 0 =>
      match tsAt (c :: rest) with
      | some t => t :: findTsAux rest 14
      | none => findTsAux rest 0

/-- Embedding of `re.findall(r"\d{6}-\d{2}:\d{2}:\d{2}", content)`: the
non-overlapping matches of the timestamp pattern, left to right, in order of
occurrence. -/
def findTimestamps (content : List Char) : List RawTs := findTsAux content 0

/-- The full year `datetime.strptime` assigns to the two-digit `%y` field:
`00`-`68` map to `2000`-`2068`, `69`-`99` to `1969`-`1999`. -/
def fullYear (yy : ℕ) : ℕ := if yy ≤ 68 then 2000 + yy else 1900 + yy

/-- Gregorian leap year. -/
def isLeap (y : ℕ) : Bool := (y % 4 = 0 && !(y % 100 = 0)) || y % 400 = 0

/-- Number of days of month `m` in year `y`. -/
def daysInMonth (m y : ℕ) : ℕ :=
  if m = 2 then (if isLeap y then 29 else 28)
  else if m = 4 ∨ m = 6 ∨ m = 9 ∨ m = 11 then 30
  else 31

/-- The values of a digit-shaped timestamp that
`datetime.strptime(s, "%y%m%d-%H:%M:%S")` accepts; on any other values it
raises `ValueError` (either because the format regex does not match or
because the `datetime` constructor rejects the field). -/
def strptimeValid (t : RawTs) : Bool :=
  1 ≤ t.mm && t.mm ≤ 12 && 1 ≤ t.dd && t.dd ≤ daysInMonth t.mm (fullYear t.yy)
    && t.hh ≤ 23 && t.mi ≤ 59 && t.ss ≤ 59

/-- Days from 1 January of year 1 to 1 January of year `y` (proleptic
Gregorian calendar, as used by `datetime`). -/
def daysBeforeYear (y : ℕ) : ℕ :=
  365 * (y - 1) + (y - 1) / 4 - (y - 1) / 100 + (y - 1) / 400

/-- Days from 1 January to the first day of month `m` in year `y`. -/
def daysBeforeMonth (m y : ℕ) : ℕ :=
  [0, 31, 59, 90, 120, 151, 181, 212, 243, 273, 304, 334].getD (m - 1) 0
    + (if 3 ≤ m && isLeap y then 1 else 0)

/-- The instant a valid timestamp denotes, in seconds on the proleptic
Gregorian time line; `datetime` subtraction returns the exact difference of
these instants as a `timedelta`. -/
def epochSecs (t : RawTs) : ℤ :=
  let y := fullYear t.yy
  ((daysBeforeYear y + daysBeforeMonth t.mm y + (t.dd - 1)) * 86400
      + t.hh * 3600 + t.mi * 60 + t.ss : ℕ)

/-- Embedding of `utils.extract_runtime`.  `Except.error ()` models an
uncaught `ValueError` raised by `datetime.strptime`; `Except.ok r` models a
normal return, the runtime being measured in seconds (Python returns the
corresponding `timedelta`, and the `int` 0 when no timestamp matches). -/
def extract_runtime (content : List Char) : Except Unit ℤ :=
  match findTimestamps content with
  | [] => .ok 0
  | t :: ts =>
      if strptimeValid t then
        let last := ts.getLastD t
        if strptimeValid last then .ok (epochSecs last - epochSecs t)
        else .error ()
      else .error ()

/-- C6 counterexample: on the content `"999999-99:99:99"` the timestamp
pattern matches, but `datetime.strptime` raises `ValueError` (month 99), so
`extract_runtime` raises instead of returning a difference. -/
theorem extract_runtime_invalid_raises :
    extract_runtime "999999-99:99:99".toList = .error () := by rfl

lemma findTsAux_nil_iff (l : List Char) :
    findTsAux l 0 = [] ↔ ∀ i, tsAt (l.drop i) = none := by
  induction l with
  | nil =>
      constructor
      · intro _ i
        simp [List.drop_nil, tsAt]
      · intro _; rfl
  | cons c rest ih =>
      constructor
      · intro h i
        cases hm : tsAt (c :: rest) with
        | some t => simp [findTsAux, hm] at h
        | none =>
            cases i with
            | zero => simpa using hm
            | succ j =>
                have hrest : findTsAux rest 0 = [] := by
                  simpa [findTsAux, hm] using h
                exact (ih.mp hrest) j
      · intro h
        have h0 : tsAt (c :: rest) = none := by simpa using h 0
        have hrest : ∀ i, tsAt (rest.drop i) = none := fun i => by
          simpa using h (i + 1)
        simp [findTsAux, h0, ih.mpr hrest]

/-- C6 amended: `extract_runtime` scans the content for the non-overlapping
occurrences of the pattern `\d{6}-\d{2}:\d{2}:\d{2}` in order of occurrence;
it returns 0 when no timestamp occurs (equivalently, when the pattern matches
at no position of the content); when the first and last matched timestamps
are valid date-times it returns their difference (last minus first); and when
either of the two is rejected by `datetime.strptime` it raises `ValueError`
instead of returning. -/
theorem extract_runtime_spec (content : List Char) :
    (findTimestamps content = [] ↔ ∀ i, tsAt (content.drop i) = none) ∧
    (findTimestamps content = [] → extract_runtime content = .ok 0) ∧
    (∀ t ts, findTimestamps content = t :: ts →
      strptimeValid t → strptimeValid (ts.getLastD t) →
      extract_runtime content = .ok (epochSecs (ts.getLastD t) - epochSecs t)) ∧
    (∀ t ts, findTimestamps content = t :: ts →
      (strptimeValid t = false ∨ strptimeValid (ts.getLastD t) = false) →
      extract_runtime content = .error ()) := by
  refine ⟨findTsAux_nil_iff content, ?_, ?_, ?_⟩
  · intro h
    simp [extract_runtime, findTimestamps] at h ⊢
    simp [h]
  · intro t ts h h1 h2
    rw [List.getLastD_eq_getLast?] at h2 ⊢
    simp [extract_runtime, findTimestamps] at h ⊢
    simp [h, h1, h2, List.getLastD_eq_getLast?]
  · intro t ts h hor
    rw [List.getLastD_eq_getLast?] at hor
    simp [extract_runtime, findTimestamps] at h ⊢
    rcases hor with h1 | h1
    · simp [h, h1]
    · cases h2 : strptimeValid t <;> simp [h, h1, h2, List.getLastD_eq_getLast?]

/-- Witness for the amended C6 on a content with two valid timestamps one
hour apart: the runtime is 3600 seconds. -/
theorem extract_runtime_spec_witness :
    (findTimestamps "start 250101-00:00:00 end 250101-01:00:00".toList =
        ⟨25, 1, 1, 0, 0, 0⟩ :: [⟨25, 1, 1, 1, 0, 0⟩] ∧
      strptimeValid (⟨25, 1, 1, 0, 0, 0⟩ : RawTs) ∧
      strptimeValid (([⟨25, 1, 1, 1, 0, 0⟩] : List RawTs).getLastD ⟨25, 1, 1, 0, 0, 0⟩)) ∧
    extract_runtime "start 250101-00:00:00 end 250101-01:00:00".toList =
      .ok (epochSecs (([⟨25, 1, 1, 1, 0, 0⟩] : List RawTs).getLastD ⟨25, 1, 1, 0, 0, 0⟩)
        - epochSecs ⟨25, 1, 1, 0, 0, 0⟩) :=
  ⟨⟨by decide, by decide, by decide⟩,
    (extract_runtime_spec _).2.2.1 ⟨25, 1, 1, 0, 0, 0⟩ [⟨25, 1, 1, 1, 0, 0⟩]
      (by decide) (by decide) (by decide)⟩

/-! ## `read_log` (utils.py lines 200-241) -/

/-- Python's substring test `needle in hay`, by scanning every position. -/
def containsSub (needle : List Char) : List Char → Bool
  | [] => needle.isPrefixOf []
  | c :: rest => needle.isPrefixOf (c :: rest) || containsSub needle rest

/-- `containsSub` decides the substring (infix) relation. -/
lemma containsSub_iff (needle : List Char) :
    ∀ hay, containsSub needle hay = true ↔ needle <:+: hay := by
  intro hay
  induction hay with
  | nil =>
      simp [containsSub, List.isPrefixOf_iff_prefix, List.infix_nil, List.prefix_nil]
  | cons c rest ih =>
      simp [containsSub, List.isPrefixOf_iff_prefix, List.infix_cons_iff, ih]

/-- The parts of the filesystem `utils.read_log` touches: the listing of a
directory (`none` when `os.path.exists` is false) and the text content of a
file, keyed by path. -/
structure FileSystem where
  listDir : List Char → Option (List (List Char))
  readFile : List Char → List Char

/-- The tool-specific success marker `utils.read_log` looks for:

```python
if runtype == "fmriprep":   success_string = "fMRIPrep finished successfully"
elif runtype == "xcpd":     success_string = "XCP-D finished successfully"
elif runtype == "qsiprep":  success_string = "QSIPrep finished successfully"
elif runtype == "qsirecon": success_string = "QSIRecon finished successfully"
elif runtype == "mriqc":    success_string = "MRIQC finished successfully"
else:                       success_string = 'finished successfully'
```
-/
def successString (runtype : List Char) : List Char :=
  if runtype = "fmriprep".toList then "fMRIPrep finished successfully".toList
  else if runtype = "xcpd".toList then "XCP-D finished successfully".toList
  else if runtype = "qsiprep".toList then "QSIPrep finished successfully".toList
  else if runtype = "qsirecon".toList then "QSIRecon finished successfully".toList
  else if runtype = "mriqc".toList then "MRIQC finished successfully".toList
  else "finished successfully".toList

/-- Body of the `for file in stdout_files` loop of `utils.read_log`: a file
whose content contains the success marker sets the status to `"Success"` and
sets the runtime to `extract_runtime(content)`, keeping the previous runtime
when that raises `ValueError` (the `except` branch only prints). -/
def readLogStep (fs : FileSystem) (stdout_dir success : List Char)
    (acc : List Char × ℤ) (f : List Char) : List Char × ℤ :=
  let content := fs.readFile (stdout_dir ++ "/".toList ++ f)
  if containsSub success content then
    ("Success".toList,
      match extract_runtime content with
      | .ok r => r
      | .error _ => acc.2)
  else acc

/-- Core of `utils.read_log`, abstracted over the stdout directory path, the
filename prefix, the success marker and the result of
`os.listdir(stdout_dir)` (`none` when the directory does not exist): filter
the listing to `<prefix>*.out` files and run the status/runtime loop over
them starting from `("Error", 0)`. -/
def readLogCore (fs : FileSystem) (dir pre success : List Char) :
    Option (List (List Char)) → List Char × ℤ
  | none => ("Error".toList, 0)
  | some entries =>
      let files := entries.filter (fun f => pre.isPrefixOf f && ".out".toList.isSuffixOf f)
      if files = [] then ("Error".toList, 0)
      else files.foldl (readLogStep fs dir success) ("Error".toList, 0)

/-- Embedding of `utils.read_log`: status (`"Success"`/`"Error"`) and runtime
for a given subject, session and runtype.  `derivatives` is
`config["common"]["derivatives"]`; the stdout directory is
`f"{DERIVATIVES_DIR}/{runtype}/stdout"` and the filename prefix is
`f"{runtype}_{subject}_{session}"`. -/
def read_log (fs : FileSystem) (derivatives subject session runtype : List Char) :
    List Char × ℤ :=
  readLogCore fs (derivatives ++ "/".toList ++ runtype ++ "/stdout".toList)
    (runtype ++ "_".toList ++ subject ++ "_".toList ++ session)
    (successString runtype)
    (fs.listDir (derivatives ++ "/".toList ++ runtype ++ "/stdout".toList))

lemma readLog_foldl_no_match (fs : FileSystem) (stdout_dir success : List Char)
    (files : List (List Char))
    (h : ∀ f ∈ files, containsSub success (fs.readFile (stdout_dir ++ "/".toList ++ f)) = false) :
    ∀ acc, files.foldl (readLogStep fs stdout_dir success) acc = acc := by
  induction files with
  | nil => intro acc; rfl
  | cons f rest ih =>
      intro acc
      have hf := h f (by simp)
      have hrest : ∀ g ∈ rest, containsSub success
          (fs.readFile (stdout_dir ++ "/".toList ++ g)) = false :=
        fun g hg => h g (by simp [hg])
      simp only [List.foldl_cons, readLogStep, hf]
      simpa using ih hrest acc

lemma readLog_foldl_status (fs : FileSystem) (stdout_dir success : List Char)
    (files : List (List Char)) :
    ∀ acc, (files.foldl (readLogStep fs stdout_dir success) acc).1 = "Success".toList ↔
      (acc.1 = "Success".toList ∨ ∃ f ∈ files,
        containsSub success (fs.readFile (stdout_dir ++ "/".toList ++ f)) = true) := by
  induction files with
  | nil => intro acc; simp
  | cons f rest ih =>
      intro acc
      by_cases hf : containsSub success (fs.readFile (stdout_dir ++ "/".toList ++ f)) = true
      · simp only [List.foldl_cons, readLogStep, hf, if_true]
        rw [ih]
        constructor
        · intro _; exact Or.inr ⟨f, List.mem_cons_self f rest, hf⟩
        · intro _; exact Or.inl rfl
      · simp only [List.foldl_cons, readLogStep, hf, if_false]
        rw [ih]
        constructor
        · rintro (h | ⟨g, hg, hP⟩)
          · exact Or.inl h
          · exact Or.inr ⟨g, List.mem_cons_of_mem f hg, hP⟩
        · rintro (h | ⟨g, hg, hP⟩)
          · exact Or.inl h
          · rcases List.mem_cons.mp hg with rfl | hg'
            · exact absurd hP hf
            · exact Or.inr ⟨g, hg', hP⟩

lemma readLogCore_spec (fs : FileSystem) (dir pre success : List Char)
    (o : Option (List (List Char))) :
    ((readLogCore fs dir pre success o).1 = "Success".toList ↔
      (∃ entries, o = some entries ∧ ∃ f ∈ entries,
        pre <+: f ∧ ".out".toList <:+ f ∧
        success <:+: fs.readFile (dir ++ "/".toList ++ f))) ∧
    (¬ (∃ entries, o = some entries ∧ ∃ f ∈ entries,
        pre <+: f ∧ ".out".toList <:+ f ∧
        success <:+: fs.readFile (dir ++ "/".toList ++ f)) →
      readLogCore fs dir pre success o = ("Error".toList, 0)) := by
  have hmem : ∀ (entries : List (List Char)) (f : List Char),
      (f ∈ entries.filter (fun f => pre.isPrefixOf f && ".out".toList.isSuffixOf f)) ↔
        (f ∈ entries ∧ pre <+: f ∧ ".out".toList <:+ f) := by
    intro entries f
    simp [List.mem_filter, List.isPrefixOf_iff_prefix, List.isSuffixOf_iff_suffix,
      and_assoc]
  cases o with
  | none =>
      refine ⟨⟨fun h => absurd
        (show ("Error".toList : List Char) = "Success".toList from h) (by decide),
        ?_⟩, fun _ => rfl⟩
      rintro ⟨e, he, -⟩
      simp at he
  | some entries =>
      have hcond : (∃ entries', (some entries : Option (List (List Char))) = some entries' ∧
          ∃ f ∈ entries', pre <+: f ∧ ".out".toList <:+ f ∧
            success <:+: fs.readFile (dir ++ "/".toList ++ f)) ↔
          (∃ f ∈ entries.filter (fun f => pre.isPrefixOf f && ".out".toList.isSuffixOf f),
            containsSub success (fs.readFile (dir ++ "/".toList ++ f)) = true) := by
        constructor
        · rintro ⟨entries', he, f, hfe, hp, hs, hc⟩
          cases Option.some.injEq .. ▸ he
          exact ⟨f, (hmem entries f).mpr ⟨hfe, hp, hs⟩, (containsSub_iff _ _).mpr hc⟩
        · rintro ⟨f, hf, hc⟩
          rcases (hmem entries f).mp hf with ⟨hfe, hp, hs⟩
          exact ⟨entries, rfl, f, hfe, hp, hs, (containsSub_iff _ _).mp hc⟩
      by_cases hemp : entries.filter
          (fun f => pre.isPrefixOf f && ".out".toList.isSuffixOf f) = []
      · have hres : readLogCore fs dir pre success (some entries) = ("Error".toList, 0) := by
          simp only [readLogCore, hemp, if_pos]
        refine ⟨⟨fun h => ?_, fun h => ?_⟩, fun _ => hres⟩
        · rw [hres] at h
          exact absurd h (by decide)
        · rw [hcond] at h
          rcases h with ⟨f, hf, -⟩
          rw [hemp] at hf
          simp at hf
      · have hres : readLogCore fs dir pre success (some entries) =
            (entries.filter (fun f => pre.isPrefixOf f && ".out".toList.isSuffixOf f)).foldl
              (readLogStep fs dir success) ("Error".toList, 0) := by
          simp only [readLogCore, hemp, if_neg, if_false]
        constructor
        · rw [hres, hcond,
            readLog_foldl_status fs dir success _ ("Error".toList, 0)]
          have hne : ¬ (("Error".toList : List Char) = "Success".toList) := by decide
          constructor
          · rintro (h | h)
            · exact absurd h hne
            · exact h
          · intro h; exact Or.inr h
        · rw [hcond]
          intro h
          push_neg at h
          have hall : ∀ f ∈ entries.filter
              (fun f => pre.isPrefixOf f && ".out".toList.isSuffixOf f),
              containsSub success (fs.readFile (dir ++ "/".toList ++ f)) = false := by
            intro f hf
            have := h f hf
            simpa using this
          rw [hres, readLog_foldl_no_match fs dir success _ hall]

/-- C4: `utils.read_log` returns status `"Success"` iff the stdout directory
`<derivatives>/<runtype>/stdout` exists and some file in it whose name starts
with `<runtype>_<subject>_<session>` and ends with `".out"` contains the
tool-specific success string; in every other case it returns status
`"Error"` with runtime 0. -/
theorem read_log_spec (fs : FileSystem) (derivatives subject session runtype : List Char) :
    ((read_log fs derivatives subject session runtype).1 = "Success".toList ↔
      (∃ entries, fs.listDir (derivatives ++ "/".toList ++ runtype ++ "/stdout".toList)
          = some entries ∧
        ∃ f ∈ entries,
          (runtype ++ "_".toList ++ subject ++ "_".toList ++ session) <+: f ∧
          ".out".toList <:+ f ∧
          successString runtype <:+:
            fs.readFile (derivatives ++ "/".toList ++ runtype ++ "/stdout".toList
              ++ "/".toList ++ f))) ∧
    (¬ (∃ entries, fs.listDir (derivatives ++ "/".toList ++ runtype ++ "/stdout".toList)
          = some entries ∧
        ∃ f ∈ entries,
          (runtype ++ "_".toList ++ subject ++ "_".toList ++ session) <+: f ∧
          ".out".toList <:+ f ∧
          successString runtype <:+:
            fs.readFile (derivatives ++ "/".toList ++ runtype ++ "/stdout".toList
              ++ "/".toList ++ f)) →
      read_log fs derivatives subject session runtype = ("Error".toList, 0)) :=
  readLogCore_spec fs (derivatives ++ "/".toList ++ runtype ++ "/stdout".toList)
    (runtype ++ "_".toList ++ subject ++ "_".toList ++ session)
    (successString runtype)
    (fs.listDir (derivatives ++ "/".toList ++ runtype ++ "/stdout".toList))

/-- Filesystem for the C4 witness: the fmriprep stdout directory holds one
well-named file whose content carries the fMRIPrep success marker. -/
def fsWitness : FileSystem where
  listDir := fun d =>
    if d = "/d/fmriprep/stdout".toList then
      some ["fmriprep_sub-01_ses-01_j7.out".toList]
    else none
  readFile := fun _ => "... fMRIPrep finished successfully ...".toList

/-- Witness for C4 on `fsWitness`: the success condition holds and the
status is `"Success"`. -/
theorem read_log_spec_witness :
    (((read_log fsWitness "/d".toList "sub-01".toList "ses-01".toList "fmriprep".toList).1
        = "Success".toList ↔
      (∃ entries, fsWitness.listDir ("/d".toList ++ "/".toList ++ "fmriprep".toList
          ++ "/stdout".toList) = some entries ∧
        ∃ f ∈ entries,
          ("fmriprep".toList ++ "_".toList ++ "sub-01".toList ++ "_".toList
            ++ "ses-01".toList) <+: f ∧
          ".out".toList <:+ f ∧
          successString "fmriprep".toList <:+:
            fsWitness.readFile ("/d".toList ++ "/".toList ++ "fmriprep".toList
              ++ "/stdout".toList ++ "/".toList ++ f))) ∧
    (¬ (∃ entries, fsWitness.listDir ("/d".toList ++ "/".toList ++ "fmriprep".toList
          ++ "/stdout".toList) = some entries ∧
        ∃ f ∈ entries,
          ("fmriprep".toList ++ "_".toList ++ "sub-01".toList ++ "_".toList
            ++ "ses-01".toList) <+: f ∧
          ".out".toList <:+ f ∧
          successString "fmriprep".toList <:+:
            fsWitness.readFile ("/d".toList ++ "/".toList ++ "fmriprep".toList
              ++ "/stdout".toList ++ "/".toList ++ f)) →
      read_log fsWitness "/d".toList "sub-01".toList "ses-01".toList "fmriprep".toList
        = ("Error".toList, 0))) :=
  read_log_spec fsWitness "/d".toList "sub-01".toList "ses-01".toList "fmriprep".toList

/-! ## `run_freesurfer` (anat/run_freesurfer.py lines 10-46 and 154-191) -/

/-- The configuration fields `run_freesurfer` reads:
`config["common"]["input_dir"]`, `config["common"]["derivatives"]`,
`config["freesurfer"]["use_t2"]` and `config["freesurfer"]["skip_processed"]`. -/
structure RunConfig where
  input_dir : List Char
  derivatives : List Char
  use_t2 : Bool
  skip_processed : Bool

/-- The filesystem operations `run_freesurfer` performs besides its recorded
side effects: `os.path.exists` and reading the lines of a file (`none`
models the `FileNotFoundError` of `open` on a missing file). -/
structure WorldFS where
  pathExists : List Char → Bool
  readLines : List Char → Option (List (List Char))

/-- A side effect of `run_freesurfer`: creating a directory, writing the
SLURM script, removing an output tree, or submitting a command. -/
inductive Effect
  | mkdir (path : List Char)
  | writeFile (path : List Char)
  | rmtree (path : List Char)
  | submit (cmd : List Char)
deriving DecidableEq

/-- The required T1w file
`f"{BIDS_DIR}/{subject}/{session}/anat/{subject}_{session}_T1w.nii.gz"`. -/
def t1Path (cfg : RunConfig) (subject session : List Char) : List Char :=
  cfg.input_dir ++ "/".toList ++ subject ++ "/".toList ++ session
    ++ "/anat/".toList ++ subject ++ "_".toList ++ session ++ "_T1w.nii.gz".toList

/-- The optional T2w file, required when `freesurfer["use_t2"]` is set. -/
def t2Path (cfg : RunConfig) (subject session : List Char) : List Char :=
  cfg.input_dir ++ "/".toList ++ subject ++ "/".toList ++ session
    ++ "/anat/".toList ++ subject ++ "_".toList ++ session ++ "_T2w.nii.gz".toList

/-- The `required_files` list built by `check_prerequisites`. -/
def requiredFiles (cfg : RunConfig) (subject session : List Char) : List (List Char) :=
  t1Path cfg subject session ::
    (if cfg.use_t2 then [t2Path cfg subject session] else [])

/-- Embedding of `run_freesurfer.check_prerequisites`: every required file
must exist (the Python loop returns `False` at the first missing file). -/
def check_prerequisites (fs : WorldFS) (cfg : RunConfig)
    (subject session : List Char) : Bool :=
  (requiredFiles cfg subject session).all fs.pathExists

/-- Embedding of `run_freesurfer.is_already_processed`: when the output
directory exists, read `scripts/recon-all-status.log` (raising if the log is
missing, modelled by `.error`), return `False` when some line marks a
successfully finished run and `skip_processed` is set, otherwise remove the
tree when `clear_fs` and return `True`. -/
def is_already_processed (fs : WorldFS) (cfg : RunConfig)
    (subject session : List Char) (clear_fs : Bool) :
    Except Unit (Bool × List Effect) :=
  let output_dir := cfg.derivatives ++ "/freesurfer/".toList ++ subject
    ++ "_".toList ++ session
  if !fs.pathExists output_dir then .ok (false, [])
  else
    match fs.readLines (output_dir ++ "/".toList ++ "scripts/recon-all-status.log".toList) with
    | none => .error ()
    | some lines =>
        if lines.any (fun l =>
            containsSub "finished without error".toList l && cfg.skip_processed) then
          .ok (false, [])
        else
          .ok (true, if clear_fs then [.rmtree output_dir] else [])

/-- Embedding of `run_freesurfer.run_freesurfer`: check prerequisites, bail
out when already processed, otherwise create the derivatives directories,
generate the SLURM script (its text is not modelled, only the write), submit
it with `sbatch` and return the job id.  `sbatch` gives the outcome of the
submission subprocess; the returned effect list records what was performed. -/
def run_freesurfer (fs : WorldFS) (cfg : RunConfig)
    (sbatch : List Char → ProcResult) (subject session : List Char) :
    Except Unit (Option (List Char) × List Effect) :=
  if !check_prerequisites fs cfg subject session then .ok (none, [])
  else
    match is_already_processed fs cfg subject session true with
    | .error e => .error e
    | .ok (true, effs) => .ok (none, effs)
    | .ok (false, effs) =>
        let D := cfg.derivatives
        let path := D ++ "/freesurfer/scripts/".toList ++ subject ++ "_".toList
          ++ session ++ "_freesurfer.slurm".toList
        let cmd := "sbatch ".toList ++ path
        .ok (submit_job (sbatch cmd),
          effs ++ [.mkdir (D ++ "/freesurfer".toList),
            .mkdir (D ++ "/freesurfer/stdout".toList),
            .mkdir (D ++ "/freesurfer/scripts".toList),
            .mkdir (D ++ "/freesurfer/outputs".toList),
            .writeFile path, .submit cmd])

/-- C8: `run_freesurfer` returns a job id only when the required
T1w file exists (and, under `use_t2`, the T2w file too); when any required
file is missing it returns `None` having performed no effect at all — in
particular it neither generates nor submits any script. -/
theorem run_freesurfer_prerequisites (fs : WorldFS) (cfg : RunConfig)
    (sbatch : List Char → ProcResult) (subject session : List Char) :
    (∀ jid effs, run_freesurfer fs cfg sbatch subject session = .ok (some jid, effs) →
      fs.pathExists (t1Path cfg subject session) = true ∧
      (cfg.use_t2 = true → fs.pathExists (t2Path cfg subject session) = true)) ∧
    ((fs.pathExists (t1Path cfg subject session) = false ∨
        (cfg.use_t2 = true ∧ fs.pathExists (t2Path cfg subject session) = false)) →
      run_freesurfer fs cfg sbatch subject session = .ok (none, [])) := by
  by_cases hc : check_prerequisites fs cfg subject session = true
  · have hall := List.all_eq_true.mp hc
    have ht1 : fs.pathExists (t1Path cfg subject session) = true :=
      hall _ (by simp [requiredFiles])
    constructor
    · intro jid effs _
      refine ⟨ht1, fun h2 => hall _ ?_⟩
      simp [requiredFiles, h2]
    · rintro (h1 | ⟨h2, h2'⟩)
      · rw [ht1] at h1; cases h1
      · have := hall _ (show t2Path cfg subject session ∈ requiredFiles cfg subject session
          by simp [requiredFiles, h2])
        rw [this] at h2'; cases h2'
  · have hrun : run_freesurfer fs cfg sbatch subject session = .ok (none, []) := by
      simp only [run_freesurfer, Bool.not_eq_true'] at hc ⊢
      rw [Bool.not_eq_true] at hc
      simp [hc]
    constructor
    · intro jid effs heq
      rw [hrun] at heq
      simp at heq
    · intro _; exact hrun

/-- World for the C8 witness: no file exists at all, so the T1w prerequisite
fails and nothing is generated or submitted. -/
def fsEmpty : WorldFS where
  pathExists := fun _ => false
  readLines := fun _ => none

/-- Configuration for the C8 witness. -/
def cfgWitness : RunConfig where
  input_dir := "/bids".toList
  derivatives := "/deriv".toList
  use_t2 := false
  skip_processed := true

/-- Witness for C8: with no files present, `run_freesurfer` returns `None`
and performs no effect. -/
theorem run_freesurfer_prerequisites_witness :
    (∀ jid effs, run_freesurfer fsEmpty cfgWitness (fun _ => ⟨1, []⟩)
        "sub-01".toList "ses-01".toList = .ok (some jid, effs) →
      fsEmpty.pathExists (t1Path cfgWitness "sub-01".toList "ses-01".toList) = true ∧
      (cfgWitness.use_t2 = true →
        fsEmpty.pathExists (t2Path cfgWitness "sub-01".toList "ses-01".toList) = true)) ∧
    ((fsEmpty.pathExists (t1Path cfgWitness "sub-01".toList "ses-01".toList) = false ∨
        (cfgWitness.use_t2 = true ∧
          fsEmpty.pathExists (t2Path cfgWitness "sub-01".toList "ses-01".toList) = false)) →
      run_freesurfer fsEmpty cfgWitness (fun _ => ⟨1, []⟩)
        "sub-01".toList "ses-01".toList = .ok (none, [])) :=
  run_freesurfer_prerequisites fsEmpty cfgWitness (fun _ => ⟨1, []⟩)
    "sub-01".toList "ses-01".toList

/-! ## `read_log` of `anat/qc_freesurfer.py` (lines 18-53)

```python
finished_pattern = re.compile(r"finished without error")
runtime_pattern = re.compile(r"#@#%# recon-all-run-time-hours (\d+\.\d+)")
topo_before_pattern_lh = re.compile(r"#@# Fix Topology lh.*?before topology correction, eno=([^\(]+)", re.DOTALL)
...
```

The `open`/`read` of the log file is modelled by passing the file's text. -/

/-- Match `#@#%# recon-all-run-time-hours (\d+\.\d+)` at the head of the
list and return the captured group.  `\d+` is greedy; since a digit is never
`'.'`, backtracking never shortens the runs, so the maximal digit runs are
the only candidates. -/
def runtimeCapAt (l : List Char) : Option (List Char) :=
  if "#@#%# recon-all-run-time-hours ".toList.isPrefixOf l then
    let rest := l.drop "#@#%# recon-all-run-time-hours ".toList.length
    match rest.takeWhile Char.isDigit, rest.dropWhile Char.isDigit with
    | [], _ => none
    | d1, '.' :: rest2 =>
        match rest2.takeWhile Char.isDigit with
        | [] => none
        | d2 => some (d1 ++ '.' :: d2)
    | _, _ => none
  else none

/-- Scan the text left to right and return the first position's result where
the matcher succeeds: the semantics of `re.search`. -/
def searchFirst {α : Type} (f : List Char → Option α) : List Char → Option α
  | [] => f []
  | c :: rest =>
      match f (c :: rest) with
      | some r => some r
      | none => searchFirst f rest

/-- The suffix just after the first occurrence of the anchor `A` — the point
where `.*?` resumes after the regex's leading literal — or `none` when `A`
does not occur. -/
def findAfter (A : List Char) : List Char → Option (List Char)
  | [] => if A.isPrefixOf ([] : List Char) then some [] else none
  | c :: rest =>
      if A.isPrefixOf (c :: rest) then some ((c :: rest).drop A.length)
      else findAfter A rest

/-- The first occurrence of the marker `M` followed by at least one
character other than `'('`, with the greedy capture `[^\(]+` after it; a
lazy `.*?M([^\(]+)` continues past occurrences whose capture would be
empty. -/
def findValidMarker (M : List Char) : List Char → Option (List Char)
  | [] => none
  | c :: rest =>
      if M.isPrefixOf (c :: rest) then
        let cap := ((c :: rest).drop M.length).takeWhile (fun ch => ch ≠ '(')
        if cap = [] then findValidMarker M rest else some cap
      else findValidMarker M rest

/-- Semantics of `re.search(A + ".*?" + M + r"([^\(]+)", content, re.DOTALL)`
for literal `A` and `M`: the capture after the first valid marker following
the first anchor occurrence (if no valid marker follows the first anchor
occurrence, none follows any later one either). -/
def enoCapture (A M content : List Char) : Option (List Char) :=
  match findAfter A content with
  | none => none
  | some tail => findValidMarker M tail

/-- The result tuple of `qc_freesurfer.read_log`; the four Euler-number
captures are strings, `none` modelling `np.nan`. -/
structure FsLogInfo where
  finished_status : List Char
  runtime : List Char
  eno_before_lh : Option (List Char)
  eno_before_rh : Option (List Char)
  eno_after_lh : Option (List Char)
  eno_after_rh : Option (List Char)

namespace QcFreesurfer

/-- Embedding of `anat/qc_freesurfer.read_log`, the log file's text passed
directly: success status, runtime capture (or `"Not found"`), and the four
Euler-number captures (or NaN). -/
def read_log (log_content : List Char) : FsLogInfo where
  finished_status :=
    if containsSub "finished without error".toList log_content
    then "Success".toList else "Error".toList
  runtime :=
    match searchFirst runtimeCapAt log_content with
    | some cap => cap
    | none => "Not found".toList
  eno_before_lh := enoCapture "#@# Fix Topology lh".toList
    "before topology correction, eno=".toList log_content
  eno_before_rh := enoCapture "#@# Fix Topology rh".toList
    "before topology correction, eno=".toList log_content
  eno_after_lh := enoCapture "#@# Fix Topology lh".toList
    "after topology correction, eno=".toList log_content
  eno_after_rh := enoCapture "#@# Fix Topology rh".toList
    "after topology correction, eno=".toList log_content

end QcFreesurfer

lemma searchFirst_eq_none_iff {α : Type} (f : List Char → Option α) :
    ∀ l, searchFirst f l = none ↔ ∀ i, f (l.drop i) = none := by
  intro l
  induction l with
  | nil =>
      constructor
      · intro h i; simpa [List.drop_nil] using h
      · intro h; exact h 0
  | cons c rest ih =>
      constructor
      · intro h i
        cases hf : f (c :: rest) with
        | some r => simp [searchFirst, hf] at h
        | none =>
            cases i with
            | zero => simpa using hf
            | succ j =>
                have h' : searchFirst f rest = none := by
                  simpa [searchFirst, hf] using h
                simpa using (ih.mp h') j
      · intro h
        have h0 : f (c :: rest) = none := by simpa using h 0
        have h' : ∀ i, f (rest.drop i) = none := fun i => by simpa using h (i + 1)
        simp [searchFirst, h0, ih.mpr h']

lemma searchFirst_eq_some {α : Type} (f : List Char → Option α) :
    ∀ l r, searchFirst f l = some r →
      ∃ j, (∀ k < j, f (l.drop k) = none) ∧ f (l.drop j) = some r := by
  intro l
  induction l with
  | nil =>
      intro r h
      exact ⟨0, fun k hk => absurd hk (Nat.not_lt_zero k), by simpa using h⟩
  | cons c rest ih =>
      intro r h
      cases hf : f (c :: rest) with
      | some r' =>
          have hr : some r' = some r := by
            rw [← hf]; simpa [searchFirst, hf] using h
          exact ⟨0, fun k hk => absurd hk (Nat.not_lt_zero k),
            by simpa using hf.trans hr⟩
      | none =>
          have h' : searchFirst f rest = some r := by
            simpa [searchFirst, hf] using h
          rcases ih r h' with ⟨j, hnone, hsome⟩
          refine ⟨j + 1, fun k hk => ?_, by simpa using hsome⟩
          cases k with
          | zero => simpa using hf
          | succ k' => simpa using hnone k' (by omega)

lemma findAfter_nil (A : List Char) :
    findAfter A [] = if A.isPrefixOf ([] : List Char) then some [] else none := rfl

lemma findAfter_cons (A : List Char) (c : Char) (rest : List Char) :
    findAfter A (c :: rest) =
      if A.isPrefixOf (c :: rest) then some ((c :: rest).drop A.length)
      else findAfter A rest := rfl

lemma findAfter_eq_none_iff (A : List Char) :
    ∀ l, findAfter A l = none ↔ ¬ ∃ u t, l = u ++ (A ++ t) := by
  intro l
  induction l with
  | nil =>
      rw [findAfter_nil]
      by_cases hA : A.isPrefixOf ([] : List Char)
      · have hA' : A = [] := by
          simpa [List.isPrefixOf_iff_prefix, List.prefix_nil] using hA
        subst hA'
        rw [if_pos hA]
        constructor
        · intro h; simp at h
        · intro h; exact absurd ⟨[], [], rfl⟩ h
      · have hA' : A ≠ [] := by
          intro h; subst h; exact hA (by simp [List.isPrefixOf_iff_prefix])
        rw [if_neg hA]
        constructor
        · rintro - ⟨u, t, he⟩
          have := congrArg List.length he
          simp at this
          exact hA' (List.length_eq_zero.mp (by omega))
        · intro _; rfl
  | cons c rest ih =>
      rw [findAfter_cons]
      by_cases hA : A.isPrefixOf (c :: rest)
      · rw [if_pos hA]
        rcases List.isPrefixOf_iff_prefix.mp hA with ⟨t, ht⟩
        constructor
        · intro h; simp at h
        · intro h; exact absurd ⟨[], t, by simp [ht]⟩ h
      · rw [if_neg hA, ih]
        constructor
        · rintro h ⟨u, t, he⟩
          cases u with
          | nil =>
              simp only [List.nil_append] at he
              exact hA (List.isPrefixOf_iff_prefix.mpr ⟨t, he.symm⟩)
          | cons c' u' =>
              rw [List.cons_append] at he
              injection he with h1 h2
              exact h ⟨u', t, h2⟩
        · rintro h ⟨u, t, he⟩
          exact h ⟨c :: u, t, by rw [he, List.cons_append]⟩

lemma findAfter_eq_some (A : List Char) :
    ∀ l t, findAfter A l = some t → ∃ u, l = u ++ (A ++ t) := by
  intro l
  induction l with
  | nil =>
      intro t h
      rw [findAfter_nil] at h
      by_cases hA : A.isPrefixOf ([] : List Char)
      · have hA' : A = [] := by
          simpa [List.isPrefixOf_iff_prefix, List.prefix_nil] using hA
        subst hA'
        rw [if_pos hA] at h
        injection h with h
        exact ⟨[], by simp [← h]⟩
      · rw [if_neg hA] at h
        cases h
  | cons c rest ih =>
      intro t h
      rw [findAfter_cons] at h
      by_cases hA : A.isPrefixOf (c :: rest)
      · rcases List.isPrefixOf_iff_prefix.mp hA with ⟨s, hs⟩
        have hdrop : (c :: rest).drop A.length = s := by
          rw [← hs]; exact List.drop_left A s
        rw [if_pos hA, hdrop] at h
        injection h with h
        exact ⟨[], by rw [List.nil_append, ← h, hs]⟩
      · rw [if_neg hA] at h
        rcases ih t h with ⟨u, hu⟩
        exact ⟨c :: u, by rw [hu, List.cons_append]⟩

lemma findAfter_first (A : List Char) :
    ∀ l t, findAfter A l = some t →
      ∀ u' t', l = u' ++ (A ++ t') → t'.length ≤ t.length := by
  intro l
  induction l with
  | nil =>
      intro t h u' t' he
      have := congrArg List.length he
      simp at this
      omega
  | cons c rest ih =>
      intro t h u' t' he
      rw [findAfter_cons] at h
      by_cases hA : A.isPrefixOf (c :: rest)
      · rcases List.isPrefixOf_iff_prefix.mp hA with ⟨s, hs⟩
        have hdrop : (c :: rest).drop A.length = s := by
          rw [← hs]; exact List.drop_left A s
        rw [if_pos hA, hdrop] at h
        injection h with h
        subst h
        have hlen1 := congrArg List.length he
        have hlen2 := congrArg List.length hs
        simp only [List.length_append, List.length_cons] at hlen1 hlen2
        omega
      · cases u' with
        | nil =>
            rw [List.nil_append] at he
            exact absurd (List.isPrefixOf_iff_prefix.mpr ⟨t', he.symm⟩) hA
        | cons c' u'' =>
            rw [List.cons_append] at he
            injection he with h1 h2
            rw [if_neg hA] at h
            exact ih t h u'' t' h2

lemma findValidMarker_cons (M : List Char) (c : Char) (rest : List Char) :
    findValidMarker M (c :: rest) =
      if M.isPrefixOf (c :: rest) then
        (if ((c :: rest).drop M.length).takeWhile (fun ch => ch ≠ '(') = []
         then findValidMarker M rest
         else some (((c :: rest).drop M.length).takeWhile (fun ch => ch ≠ '(')))
      else findValidMarker M rest := rfl

/-- The continuation `t'` right after a marker occurrence can feed a
non-empty `[^\(]+` capture: it starts with a character other than `'('`. -/
def ValidStart (t' : List Char) : Prop := ∃ c t'', t' = c :: t'' ∧ c ≠ '('

lemma dropWhile_head_not (p : Char → Bool) :
    ∀ l : List Char, l.dropWhile p = [] ∨
      ∃ c rest, l.dropWhile p = c :: rest ∧ p c = false := by
  intro l
  induction l with
  | nil => exact Or.inl rfl
  | cons c rest ih =>
      by_cases hc : p c = true
      · simpa [List.dropWhile_cons, hc] using ih
      · right
        refine ⟨c, rest, ?_, by simpa using hc⟩
        simp [List.dropWhile_cons, hc]

/-- A successful `findValidMarker` run determines the capture completely:
the marker occurrence used is the earliest one whose continuation starts
with a non-`'('` character, and the capture is the maximal `'('`-free run
after it (the remainder is empty or starts with `'('`). -/
lemma findValidMarker_eq_some (M : List Char) :
    ∀ t cap, findValidMarker M t = some cap →
      ∃ u v, t = u ++ (M ++ (cap ++ v)) ∧
        cap ≠ [] ∧ (∀ ch ∈ cap, ch ≠ '(') ∧
        (v = [] ∨ v.head? = some '(') ∧
        (∀ u' t', t = u' ++ (M ++ t') → ValidStart t' → u.length ≤ u'.length) := by
  intro t
  induction t with
  | nil => intro cap h; exact Option.noConfusion h
  | cons c rest ih =>
      intro cap h
      rw [findValidMarker_cons] at h
      by_cases hM : M.isPrefixOf (c :: rest)
      · rcases List.isPrefixOf_iff_prefix.mp hM with ⟨s, hs⟩
        have hdrop : (c :: rest).drop M.length = s := by
          rw [← hs]; exact List.drop_left M s
        rw [if_pos hM] at h
        by_cases hcap : ((c :: rest).drop M.length).takeWhile (fun ch => ch ≠ '(') = []
        · rw [if_pos hcap] at h
          rcases ih cap h with ⟨u, v, hu, h1, h2, h3, h4⟩
          refine ⟨c :: u, v, by rw [hu, List.cons_append], h1, h2, h3, ?_⟩
          intro u' t' he hv
          cases u' with
          | nil =>
              exfalso
              rw [List.nil_append] at he
              have hst : s = t' := List.append_cancel_left (hs.trans he)
              rcases hv with ⟨d, t'', ht', hd⟩
              rw [hdrop, hst, ht', List.takeWhile_cons,
                if_pos (show decide (d ≠ '(') = true by simpa using hd)] at hcap
              simp at hcap
          | cons c' u'' =>
              rw [List.cons_append] at he
              injection he with h1' h2'
              have := h4 u'' t' h2' hv
              simp only [List.length_cons]
              omega
        · rw [if_neg hcap] at h
          injection h with h
          subst h
          refine ⟨[], ((c :: rest).drop M.length).dropWhile (fun ch => ch ≠ '('),
            ?_, hcap, ?_, ?_, ?_⟩
          · rw [List.nil_append, hdrop, List.takeWhile_append_dropWhile]
            exact hs.symm
          · intro ch hch
            simpa using List.mem_takeWhile_imp hch
          · rcases dropWhile_head_not (fun ch => ch ≠ '(')
                ((c :: rest).drop M.length) with hnil | ⟨d, r, hdr, hd⟩
            · exact Or.inl hnil
            · right
              rw [hdr, List.head?_cons]
              have : d = '(' := by simpa using hd
              rw [this]
          · intro u' t' _ _
            simp
      · rw [if_neg hM] at h
        rcases ih cap h with ⟨u, v, hu, h1, h2, h3, h4⟩
        refine ⟨c :: u, v, by rw [hu, List.cons_append], h1, h2, h3, ?_⟩
        intro u' t' he hv
        cases u' with
        | nil =>
            rw [List.nil_append] at he
            exact absurd (List.isPrefixOf_iff_prefix.mpr ⟨t', he.symm⟩) hM
        | cons c' u'' =>
            rw [List.cons_append] at he
            injection he with h1' h2'
            have := h4 u'' t' h2' hv
            simp only [List.length_cons]
            omega

lemma findValidMarker_eq_none_iff (M : List Char) :
    ∀ t, findValidMarker M t = none ↔
      ¬ ∃ u cap v, t = u ++ (M ++ (cap ++ v)) ∧ cap ≠ [] ∧ ∀ ch ∈ cap, ch ≠ '(' := by
  intro t
  induction t with
  | nil =>
      constructor
      · rintro - ⟨u, cap, v, he, hne, -⟩
        have := congrArg List.length he
        simp at this
        exact hne (List.length_eq_zero.mp (by omega))
      · intro _; rfl
  | cons c rest ih =>
      rw [findValidMarker_cons]
      by_cases hM : M.isPrefixOf (c :: rest)
      · rw [if_pos hM]
        rcases List.isPrefixOf_iff_prefix.mp hM with ⟨s, hs⟩
        have hdrop : (c :: rest).drop M.length = s := by
          rw [← hs]; exact List.drop_left M s
        by_cases hcap : ((c :: rest).drop M.length).takeWhile (fun ch => ch ≠ '(') = []
        · rw [if_pos hcap, ih]
          rw [hdrop] at hcap
          constructor
          · rintro h ⟨u, cap, v, he, hne, hpar⟩
            cases u with
            | nil =>
                rw [List.nil_append] at he
                have hsv : s = cap ++ v :=
                  List.append_cancel_left (hs.trans he)
                cases cap with
                | nil => exact hne rfl
                | cons x cap' =>
                    rw [hsv, List.cons_append, List.takeWhile_cons,
                      if_pos (show decide (x ≠ '(') = true by
                        simpa using hpar x (by simp))] at hcap
                    simp at hcap
            | cons c' u' =>
                injection he with h1 h2
                exact h ⟨u', cap, v, h2, hne, hpar⟩
          · rintro h ⟨u, cap, v, he, hne, hpar⟩
            exact h ⟨c :: u, cap, v, by rw [he, List.cons_append], hne, hpar⟩
        · rw [if_neg hcap]
          constructor
          · intro h; simp at h
          · intro h
            exfalso
            apply h
            refine ⟨[], s.takeWhile (fun ch => ch ≠ '('),
              s.dropWhile (fun ch => ch ≠ '('), ?_, by rwa [hdrop] at hcap, ?_⟩
            · rw [List.nil_append, List.takeWhile_append_dropWhile]
              exact hs.symm
            · intro ch hch
              simpa using List.mem_takeWhile_imp hch
      · rw [if_neg hM, ih]
        constructor
        · rintro h ⟨u, cap, v, he, hne, hpar⟩
          cases u with
          | nil =>
              rw [List.nil_append] at he
              exact hM (List.isPrefixOf_iff_prefix.mpr ⟨cap ++ v, he.symm⟩)
          | cons c' u' =>
              injection he with h1 h2
              exact h ⟨u', cap, v, h2, hne, hpar⟩
        · rintro h ⟨u, cap, v, he, hne, hpar⟩
          exact h ⟨c :: u, cap, v, by rw [he, List.cons_append], hne, hpar⟩

/-- Spec-level statement that `A.*?M([^\(]+)` (with DOTALL) matches the
content: an occurrence of the anchor `A` is followed, further right, by the
marker `M` and then at least one character other than `'('`. -/
def EnoPat (A M content : List Char) : Prop :=
  ∃ s₁ s₂ cap s₃, content = s₁ ++ (A ++ (s₂ ++ (M ++ (cap ++ s₃)))) ∧
    cap ≠ [] ∧ ∀ ch ∈ cap, ch ≠ '('

lemma enoCapture_eq_none_iff (A M content : List Char) :
    enoCapture A M content = none ↔ ¬ EnoPat A M content := by
  unfold enoCapture
  cases hfa : findAfter A content with
  | none =>
      constructor
      · rintro - ⟨s₁, s₂, cap, s₃, he, -, -⟩
        exact (findAfter_eq_none_iff A content).mp hfa
          ⟨s₁, s₂ ++ (M ++ (cap ++ s₃)), he⟩
      · intro _; rfl
  | some tail =>
      rw [findValidMarker_eq_none_iff]
      constructor
      · rintro h ⟨s₁, s₂, cap, s₃, he, hne, hpar⟩
        rcases findAfter_eq_some A content tail hfa with ⟨u₀, hc⟩
        have hlen := findAfter_first A content tail hfa s₁
          (s₂ ++ (M ++ (cap ++ s₃))) he
        have hsuf1 : (s₂ ++ (M ++ (cap ++ s₃))) <:+ content :=
          ⟨s₁ ++ A, by rw [he]; simp [List.append_assoc]⟩
        have hsuf2 : tail <:+ content :=
          ⟨u₀ ++ A, by rw [hc]; simp [List.append_assoc]⟩
        rcases List.suffix_of_suffix_length_le hsuf1 hsuf2 hlen with ⟨w, hw⟩
        exact h ⟨w ++ s₂, cap, s₃, by rw [← hw]; simp [List.append_assoc], hne, hpar⟩
      · rintro h ⟨u, cap, v, ht, hne, hpar⟩
        rcases findAfter_eq_some A content tail hfa with ⟨u₀, hc⟩
        exact h ⟨u₀, u, cap, v, by rw [hc, ht], hne, hpar⟩

lemma findAfter_first_u (A : List Char) (l t : List Char)
    (h : findAfter A l = some t) (u : List Char) (hu : l = u ++ (A ++ t)) :
    ∀ u' t', l = u' ++ (A ++ t') → u.length ≤ u'.length := by
  intro u' t' he
  have hlen := findAfter_first A l t h u' t' he
  have e1 := congrArg List.length hu
  have e2 := congrArg List.length he
  simp only [List.length_append] at e1 e2
  omega

lemma enoCapture_eq_some (A M content cap : List Char)
    (h : enoCapture A M content = some cap) :
    ∃ s₁ s₂ s₃, content = s₁ ++ (A ++ (s₂ ++ (M ++ (cap ++ s₃)))) ∧
      cap ≠ [] ∧ (∀ ch ∈ cap, ch ≠ '(') ∧
      (s₃ = [] ∨ s₃.head? = some '(') ∧
      (∀ u t, content = u ++ (A ++ t) → s₁.length ≤ u.length) ∧
      (∀ u' t', s₂ ++ (M ++ (cap ++ s₃)) = u' ++ (M ++ t') →
        ValidStart t' → s₂.length ≤ u'.length) := by
  unfold enoCapture at h
  cases hfa : findAfter A content with
  | none =>
      rw [hfa] at h
      exact Option.noConfusion h
  | some tail =>
      rw [hfa] at h
      rcases findValidMarker_eq_some M tail cap h with ⟨u, v, ht, h1, h2, h3, h4⟩
      rcases findAfter_eq_some A content tail hfa with ⟨u₀, hc⟩
      refine ⟨u₀, u, v, by rw [hc, ht], h1, h2, h3,
        findAfter_first_u A content tail hfa u₀ hc, ?_⟩
      rw [← ht]
      exact h4

/-- What C5 requires of one Euler-number field: `none` (NaN) exactly when
the pattern does not match, and any returned value is *the* string the regex
captures: a non-empty `'('`-free run that sits right after a marker
occurrence following an anchor occurrence, where the anchor occurrence is
the first in the log, the marker occurrence is the first after that anchor
whose continuation starts with a non-`'('` character (lazy `.*?`), and the
run is maximal — what follows it is empty or starts with `'('` (greedy
`[^\(]+`).  These conditions determine the value uniquely
(`enoSpec_determines`). -/
def enoSpec (result : Option (List Char)) (A M content : List Char) : Prop :=
  (result = none ↔ ¬ EnoPat A M content) ∧
  (∀ cap, result = some cap →
    ∃ s₁ s₂ s₃, content = s₁ ++ (A ++ (s₂ ++ (M ++ (cap ++ s₃)))) ∧
      cap ≠ [] ∧ (∀ ch ∈ cap, ch ≠ '(') ∧
      (s₃ = [] ∨ s₃.head? = some '(') ∧
      (∀ u t, content = u ++ (A ++ t) → s₁.length ≤ u.length) ∧
      (∀ u' t', s₂ ++ (M ++ (cap ++ s₃)) = u' ++ (M ++ t') →
        ValidStart t' → s₂.length ≤ u'.length))

lemma enoCapture_spec (A M content : List Char) :
    enoSpec (enoCapture A M content) A M content :=
  ⟨enoCapture_eq_none_iff A M content,
   fun cap h => enoCapture_eq_some A M content cap h⟩

lemma append_eq_append_of_length_eq {α : Type} {a b c d : List α}
    (h : a ++ b = c ++ d) (hl : a.length = c.length) : a = c ∧ b = d :=
  List.append_inj h hl

lemma capture_extension_eq (cap cap' s₃ s₃' : List Char)
    (h : cap ++ s₃ = cap' ++ s₃')
    (hlen : cap.length ≤ cap'.length)
    (hpar' : ∀ ch ∈ cap', ch ≠ '(')
    (hmax : s₃ = [] ∨ s₃.head? = some '(') : cap = cap' := by
  have hpre : cap <+: cap' := by
    have h1 : cap <+: cap ++ s₃ := List.prefix_append cap s₃
    rw [h] at h1
    exact List.prefix_of_prefix_length_le h1 (List.prefix_append cap' s₃') hlen
  rcases hpre with ⟨w, hw⟩
  cases w with
  | nil => simpa using hw
  | cons d w' =>
      exfalso
      rw [← hw, List.append_assoc] at h
      have hs₃ : s₃ = (d :: w') ++ s₃' :=
        (append_eq_append_of_length_eq h rfl).2
      have hd : d ≠ '(' := hpar' d (by rw [← hw]; simp)
      rcases hmax with hnil | hhead
      · rw [hnil] at hs₃
        simp at hs₃
      · rw [hs₃, List.cons_append, List.head?_cons] at hhead
        injection hhead with hhead
        exact hd hhead

/-- The strengthened `enoSpec` is a complete functional specification: any
two results satisfying it for the same anchor, marker and content are
equal — so only the regex's actual capture can satisfy `enoSpec`. -/
lemma enoSpec_determines (r₁ r₂ : Option (List Char)) (A M content : List Char)
    (h₁ : enoSpec r₁ A M content) (h₂ : enoSpec r₂ A M content) : r₁ = r₂ := by
  cases r₁ with
  | none =>
      cases r₂ with
      | none => rfl
      | some cap₂ =>
          exfalso
          rcases h₂.2 cap₂ rfl with ⟨s₁, s₂, s₃, he, hne, hpar, -, -, -⟩
          exact (h₁.1.mp rfl) ⟨s₁, s₂, cap₂, s₃, he, hne, hpar⟩
  | some cap₁ =>
      cases r₂ with
      | none =>
          exfalso
          rcases h₁.2 cap₁ rfl with ⟨s₁, s₂, s₃, he, hne, hpar, -, -, -⟩
          exact (h₂.1.mp rfl) ⟨s₁, s₂, cap₁, s₃, he, hne, hpar⟩
      | some cap₂ =>
          rcases h₁.2 cap₁ rfl with ⟨s₁, s₂, s₃, he₁, hne₁, hpar₁, hmax₁, hfa₁, hfm₁⟩
          rcases h₂.2 cap₂ rfl with ⟨t₁, t₂, t₃, he₂, hne₂, hpar₂, hmax₂, hfa₂, hfm₂⟩
          have hl1 : s₁.length = t₁.length :=
            le_antisymm (hfa₁ t₁ (t₂ ++ (M ++ (cap₂ ++ t₃))) he₂)
              (hfa₂ s₁ (s₂ ++ (M ++ (cap₁ ++ s₃))) he₁)
          have hsplit1 := append_eq_append_of_length_eq (he₁.symm.trans he₂) hl1
          have htail : s₂ ++ (M ++ (cap₁ ++ s₃)) = t₂ ++ (M ++ (cap₂ ++ t₃)) :=
            List.append_cancel_left hsplit1.2
          rcases List.exists_cons_of_ne_nil hne₁ with ⟨d₁, cap₁', hd1⟩
          rcases List.exists_cons_of_ne_nil hne₂ with ⟨d₂, cap₂', hd2⟩
          have hvs₁ : ValidStart (cap₁ ++ s₃) :=
            ⟨d₁, cap₁' ++ s₃, by rw [hd1, List.cons_append],
              hpar₁ d₁ (by rw [hd1]; simp)⟩
          have hvs₂ : ValidStart (cap₂ ++ t₃) :=
            ⟨d₂, cap₂' ++ t₃, by rw [hd2, List.cons_append],
              hpar₂ d₂ (by rw [hd2]; simp)⟩
          have hl2 : s₂.length = t₂.length :=
            le_antisymm (hfm₁ t₂ (cap₂ ++ t₃) htail hvs₂)
              (hfm₂ s₂ (cap₁ ++ s₃) htail.symm hvs₁)
          have hsplit2 := append_eq_append_of_length_eq htail hl2
          have hcaps : cap₁ ++ s₃ = cap₂ ++ t₃ :=
            List.append_cancel_left hsplit2.2
          rcases le_total cap₁.length cap₂.length with hc | hc
          · rw [capture_extension_eq cap₁ cap₂ s₃ t₃ hcaps hc hpar₂ hmax₁]
          · rw [capture_extension_eq cap₂ cap₁ t₃ s₃ hcaps.symm hc hpar₁ hmax₂]

/-- C5: `qc_freesurfer.read_log` returns status `"Success"` iff the log text
contains `"finished without error"`; returns as runtime the group captured by
`#@#%# recon-all-run-time-hours (\d+\.\d+)` at the first matching position,
and `"Not found"` when no position matches; and returns the four Euler
numbers captured after `before/after topology correction, eno=` following the
`#@# Fix Topology lh/rh` anchors respectively — each `enoSpec` clause pins
the value down completely (first anchor occurrence, first valid marker after
it, maximal `'('`-free capture; see `enoSpec_determines`) — with NaN
(`none`) exactly for each value whose pattern does not match. -/
theorem qc_read_log_spec (content : List Char) :
    ((QcFreesurfer.read_log content).finished_status = "Success".toList ↔
      "finished without error".toList <:+: content) ∧
    ((∀ i, runtimeCapAt (content.drop i) = none) →
      (QcFreesurfer.read_log content).runtime = "Not found".toList) ∧
    ((∃ i, runtimeCapAt (content.drop i) ≠ none) →
      ∃ j, (∀ k < j, runtimeCapAt (content.drop k) = none) ∧
        runtimeCapAt (content.drop j) =
          some (QcFreesurfer.read_log content).runtime) ∧
    enoSpec (QcFreesurfer.read_log content).eno_before_lh
      "#@# Fix Topology lh".toList "before topology correction, eno=".toList content ∧
    enoSpec (QcFreesurfer.read_log content).eno_before_rh
      "#@# Fix Topology rh".toList "before topology correction, eno=".toList content ∧
    enoSpec (QcFreesurfer.read_log content).eno_after_lh
      "#@# Fix Topology lh".toList "after topology correction, eno=".toList content ∧
    enoSpec (QcFreesurfer.read_log content).eno_after_rh
      "#@# Fix Topology rh".toList "after topology correction, eno=".toList content := by
  refine ⟨?_, ?_, ?_, enoCapture_spec _ _ content, enoCapture_spec _ _ content,
    enoCapture_spec _ _ content, enoCapture_spec _ _ content⟩
  · show (if containsSub "finished without error".toList content = true
        then "Success".toList else "Error".toList) = "Success".toList ↔
      "finished without error".toList <:+: content
    by_cases hc : containsSub "finished without error".toList content = true
    · rw [if_pos hc]
      exact ⟨fun _ => (containsSub_iff _ _).mp hc, fun _ => rfl⟩
    · rw [if_neg hc]
      constructor
      · intro h; exact absurd h (by decide)
      · intro hinf; exact absurd ((containsSub_iff _ _).mpr hinf) hc
  · intro hall
    have hnone : searchFirst runtimeCapAt content = none :=
      (searchFirst_eq_none_iff _ content).mpr hall
    show (match searchFirst runtimeCapAt content with
      | some cap => cap
      | none => "Not found".toList) = "Not found".toList
    rw [hnone]
  · rintro ⟨i, hi⟩
    cases hs : searchFirst runtimeCapAt content with
    | none => exact absurd ((searchFirst_eq_none_iff _ content).mp hs i) hi
    | some cap =>
        rcases searchFirst_eq_some _ content cap hs with ⟨j, hnone, hsome⟩
        refine ⟨j, hnone, ?_⟩
        have hr : (QcFreesurfer.read_log content).runtime = cap := by
          show (match searchFirst runtimeCapAt content with
            | some cap => cap
            | none => "Not found".toList) = cap
          rw [hs]
        rw [hr, hsome]

/-- A sample recon-all log for the C5 witness: all patterns present. -/
def fsLogSample : List Char :=
  ("#@# Fix Topology lh x\nbefore topology correction, eno=-22 (A)\n" ++
   "after topology correction, eno=0 (B)\n#@# Fix Topology rh y\n" ++
   "before topology correction, eno=-10 (C)\nafter topology correction, eno=2 (D)\n" ++
   "#@#%# recon-all-run-time-hours 1.50\nfinished without error\n").toList

/-- Witness for C5 on `fsLogSample`. -/
theorem qc_read_log_spec_witness :
    (((QcFreesurfer.read_log fsLogSample).finished_status = "Success".toList ↔
      "finished without error".toList <:+: fsLogSample) ∧
    ((∀ i, runtimeCapAt (fsLogSample.drop i) = none) →
      (QcFreesurfer.read_log fsLogSample).runtime = "Not found".toList) ∧
    ((∃ i, runtimeCapAt (fsLogSample.drop i) ≠ none) →
      ∃ j, (∀ k < j, runtimeCapAt (fsLogSample.drop k) = none) ∧
        runtimeCapAt (fsLogSample.drop j) =
          some (QcFreesurfer.read_log fsLogSample).runtime) ∧
    enoSpec (QcFreesurfer.read_log fsLogSample).eno_before_lh
      "#@# Fix Topology lh".toList "before topology correction, eno=".toList fsLogSample ∧
    enoSpec (QcFreesurfer.read_log fsLogSample).eno_before_rh
      "#@# Fix Topology rh".toList "before topology correction, eno=".toList fsLogSample ∧
    enoSpec (QcFreesurfer.read_log fsLogSample).eno_after_lh
      "#@# Fix Topology lh".toList "after topology correction, eno=".toList fsLogSample ∧
    enoSpec (QcFreesurfer.read_log fsLogSample).eno_after_rh
      "#@# Fix Topology rh".toList "after topology correction, eno=".toList fsLogSample) :=
  qc_read_log_spec fsLogSample

/-! ## `mutual_information` (utils.py lines 326-354)

```python
def mutual_information(image1, image2, bins=64):
    image1 = (image1 - image1.min()) / (image1.max() - image1.min())
    image2 = (image2 - image2.min()) / (image2.max() - image2.min())
    flat_image1 = image1.ravel()
    flat_image2 = image2.ravel()
    joint_hist, _, _ = np.histogram2d(flat_image1, flat_image2, bins=bins, range=[[0, 1], [0, 1]])
    hist1, _ = np.histogram(flat_image1, bins=bins, range=[0, 1])
    hist2, _ = np.histogram(flat_image2, bins=bins, range=[0, 1])
    joint_hist = joint_hist / joint_hist.sum()
    hist1 = hist1 / hist1.sum()
    hist2 = hist2 / hist2.sum()
    mi = 0
    for i in range(bins):
        for j in range(bins):
            if joint_hist[i, j] > 0 and hist1[i] > 0 and hist2[j] > 0:
                mi += joint_hist[i, j] * np.log2(joint_hist[i, j] / (hist1[i] * hist2[j]))
    return mi
```

Arrays are flattened lists of exact rationals; the sum is over `Finset.range`
instead of a running accumulator. -/

/-- `array.min()` of a numpy array (errors on an empty array; the `[]` value
here is junk). -/
def arrMin : List ℚ → ℚ
  | [] => 0
  | x :: xs => xs.foldl min x

/-- `array.max()` of a numpy array. -/
def arrMax : List ℚ → ℚ
  | [] => 0
  | x :: xs => xs.foldl max x

/-- The min-max normalisation `(image - image.min()) / (image.max() -
image.min())` applied elementwise. -/
def minmax (img : List ℚ) : List ℚ :=
  img.map (fun v => (v - arrMin img) / (arrMax img - arrMin img))

/-- The bin `np.histogram(·, bins, range=[0, 1])` assigns a value to:
values outside `[0, 1]` are ignored (`none`), the bins are the intervals
`[i/bins, (i+1)/bins)` and the last bin also contains the right edge 1. -/
def binIdx (bins : ℕ) (x : ℚ) : Option ℕ :=
  if 0 ≤ x ∧ x ≤ 1 then some (min (Int.toNat ⌊x * bins⌋) (bins - 1)) else none

/-- Entry `(i, j)` of the joint histogram `np.histogram2d(a, b, bins,
range=[[0, 1], [0, 1]])` of two flattened arrays. -/
def hist2d (bins : ℕ) (a b : List ℚ) (i j : ℕ) : ℕ :=
  (a.zip b).countP (fun p => binIdx bins p.1 = some i ∧ binIdx bins p.2 = some j)

/-- Entry `i` of `np.histogram(a, bins, range=[0, 1])`. -/
def hist1d (bins : ℕ) (a : List ℚ) (i : ℕ) : ℕ :=
  a.countP (fun x => binIdx bins x = some i)

/-- `joint_hist.sum()`. -/
def jointSum (bins : ℕ) (a b : List ℚ) : ℕ :=
  ∑ i ∈ Finset.range bins, ∑ j ∈ Finset.range bins, hist2d bins a b i j

/-- `hist.sum()`. -/
def histSum (bins : ℕ) (a : List ℚ) : ℕ :=
  ∑ i ∈ Finset.range bins, hist1d bins a i

/-- Embedding of `utils.mutual_information` on flattened arrays of exact
rationals. -/
noncomputable def mutual_information (image1 image2 : List ℚ) (bins : ℕ) : ℝ :=
  let a := minmax image1
  let b := minmax image2
  ∑ i ∈ Finset.range bins, ∑ j ∈ Finset.range bins,
    (if 0 < (hist2d bins a b i j : ℚ) / (jointSum bins a b : ℚ) ∧
        0 < (hist1d bins a i : ℚ) / (histSum bins a : ℚ) ∧
        0 < (hist1d bins b j : ℚ) / (histSum bins b : ℚ) then
      (((hist2d bins a b i j : ℚ) / (jointSum bins a b : ℚ) : ℚ) : ℝ) *
        Real.logb 2 (((hist2d bins a b i j : ℚ) / (jointSum bins a b : ℚ)) /
          (((hist1d bins a i : ℚ) / (histSum bins a : ℚ)) *
            ((hist1d bins b j : ℚ) / (histSum bins b : ℚ))))
    else 0)

lemma foldl_min_le_init (xs : List ℚ) : ∀ x, xs.foldl min x ≤ x := by
  induction xs with
  | nil => intro x; exact le_refl x
  | cons y ys ih => intro x; exact le_trans (ih (min x y)) (min_le_left x y)

lemma foldl_min_le_mem (xs : List ℚ) : ∀ x v, v ∈ xs → xs.foldl min x ≤ v := by
  induction xs with
  | nil => intro x v hv; simp at hv
  | cons y ys ih =>
      intro x v hv
      rcases List.mem_cons.mp hv with rfl | hv'
      · exact le_trans (foldl_min_le_init ys (min x v)) (min_le_right x v)
      · exact ih (min x y) v hv'

lemma init_le_foldl_max (xs : List ℚ) : ∀ x, x ≤ xs.foldl max x := by
  induction xs with
  | nil => intro x; exact le_refl x
  | cons y ys ih => intro x; exact le_trans (le_max_left x y) (ih (max x y))

lemma mem_le_foldl_max (xs : List ℚ) : ∀ x v, v ∈ xs → v ≤ xs.foldl max x := by
  induction xs with
  | nil => intro x v hv; simp at hv
  | cons y ys ih =>
      intro x v hv
      rcases List.mem_cons.mp hv with rfl | hv'
      · exact le_trans (le_max_right x v) (init_le_foldl_max ys (max x v))
      · exact ih (max x y) v hv'

lemma arrMin_le (l : List ℚ) (v : ℚ) (hv : v ∈ l) : arrMin l ≤ v := by
  cases l with
  | nil => simp at hv
  | cons x xs =>
      rcases List.mem_cons.mp hv with rfl | hv'
      · exact foldl_min_le_init xs v
      · exact foldl_min_le_mem xs x v hv'

lemma le_arrMax (l : List ℚ) (v : ℚ) (hv : v ∈ l) : v ≤ arrMax l := by
  cases l with
  | nil => simp at hv
  | cons x xs =>
      rcases List.mem_cons.mp hv with rfl | hv'
      · exact init_le_foldl_max xs v
      · exact mem_le_foldl_max xs x v hv'

lemma minmax_mem_unit (l : List ℚ) (h : arrMin l < arrMax l) :
    ∀ y ∈ minmax l, 0 ≤ y ∧ y ≤ 1 := by
  intro y hy
  rcases List.mem_map.mp hy with ⟨v, hv, rfl⟩
  have h1 : arrMin l ≤ v := arrMin_le l v hv
  have h2 : v ≤ arrMax l := le_arrMax l v hv
  have hpos : 0 < arrMax l - arrMin l := by linarith
  constructor
  · exact div_nonneg (by linarith) hpos.le
  · rw [div_le_one hpos]; linarith

/-- Claim-side bin membership: `x` lies in bin `i` of the `bins` equal bins
of `[0, 1]` — the interval `[i/bins, (i+1)/bins)`, the last bin including the
right edge. -/
def inBinB (bins i : ℕ) (x : ℚ) : Bool :=
  ((i : ℚ) / (bins : ℚ) ≤ x) &&
    ((x < ((i : ℚ) + 1) / (bins : ℚ)) || (i = bins - 1 && x ≤ 1))

lemma binIdx_lt (bins : ℕ) (hbins : 0 < bins) (x : ℚ) (k : ℕ)
    (h : binIdx bins x = some k) : k < bins := by
  unfold binIdx at h
  split_ifs at h with hr
  injection h with h
  have hle := min_le_right (Int.toNat ⌊x * (bins : ℚ)⌋) (bins - 1)
  omega

lemma binIdx_isSome (bins : ℕ) (x : ℚ) (hx0 : 0 ≤ x) (hx1 : x ≤ 1) :
    binIdx bins x = some (min (Int.toNat ⌊x * (bins : ℚ)⌋) (bins - 1)) := by
  unfold binIdx
  rw [if_pos ⟨hx0, hx1⟩]

lemma binIdx_eq_some_iff (bins : ℕ) (hbins : 0 < bins) (x : ℚ)
    (hx0 : 0 ≤ x) (hx1 : x ≤ 1) (i : ℕ) (hi : i < bins) :
    binIdx bins x = some i ↔ inBinB bins i x = true := by
  have hbq : (0 : ℚ) < (bins : ℚ) := by exact_mod_cast hbins
  have hK0 : 0 ≤ ⌊x * (bins : ℚ)⌋ := Int.floor_nonneg.mpr (by positivity)
  have hKb : ⌊x * (bins : ℚ)⌋ ≤ (bins : ℤ) := by
    have h' : ((⌊x * (bins : ℚ)⌋ : ℚ)) ≤ (bins : ℚ) :=
      (Int.floor_le _).trans (by nlinarith)
    exact_mod_cast h'
  have htn : ((Int.toNat ⌊x * (bins : ℚ)⌋ : ℤ)) = ⌊x * (bins : ℚ)⌋ :=
    Int.toNat_of_nonneg hK0
  rw [binIdx_isSome bins x hx0 hx1]
  simp only [Option.some.injEq, inBinB, Bool.and_eq_true, Bool.or_eq_true,
    decide_eq_true_eq]
  constructor
  · intro h
    by_cases hcase : Int.toNat ⌊x * (bins : ℚ)⌋ ≤ bins - 1
    · have hK : ⌊x * (bins : ℚ)⌋ = (i : ℤ) := by
        rw [min_eq_left hcase] at h
        omega
      have h1 : (i : ℚ) ≤ x * (bins : ℚ) := by
        have := Int.floor_le (x * (bins : ℚ))
        rw [hK] at this
        exact_mod_cast this
      have h2 : x * (bins : ℚ) < (i : ℚ) + 1 := by
        have := Int.lt_floor_add_one (x * (bins : ℚ))
        rw [hK] at this
        exact_mod_cast this
      constructor
      · rw [div_le_iff hbq]; linarith [mul_comm x (bins : ℚ)]
      · left
        rw [lt_div_iff hbq]; linarith [mul_comm x (bins : ℚ)]
    · have hmin : min (Int.toNat ⌊x * (bins : ℚ)⌋) (bins - 1) = bins - 1 :=
        min_eq_right (by omega)
      rw [hmin] at h
      have hKeq : ⌊x * (bins : ℚ)⌋ = (bins : ℤ) := by omega
      have hxb : (bins : ℚ) ≤ x * (bins : ℚ) := by
        have := Int.floor_le (x * (bins : ℚ))
        rw [hKeq] at this
        exact_mod_cast this
      have hx1' : (1 : ℚ) ≤ x := by nlinarith
      constructor
      · rw [div_le_iff hbq]
        have : ((i : ℚ) ≤ (bins : ℚ)) := by exact_mod_cast hi.le
        nlinarith
      · right
        exact ⟨h.symm, hx1⟩
  · rintro ⟨hlo, hhi | ⟨hieq, -⟩⟩
    · have h1 : (i : ℚ) ≤ x * (bins : ℚ) := by
        rw [div_le_iff hbq] at hlo
        linarith [mul_comm x (bins : ℚ)]
      have h2 : x * (bins : ℚ) < (i : ℚ) + 1 := by
        rw [lt_div_iff hbq] at hhi
        linarith [mul_comm x (bins : ℚ)]
      have hK : ⌊x * (bins : ℚ)⌋ = (i : ℤ) := by
        rw [Int.floor_eq_iff]
        constructor
        · exact_mod_cast h1
        · exact_mod_cast h2
      rw [hK]
      simp only [Int.toNat_natCast]
      exact min_eq_left (by omega)
    · subst hieq
      have hxb : (bins : ℚ) - 1 ≤ x * (bins : ℚ) := by
        rw [div_le_iff hbq] at hlo
        have hc : (((bins - 1 : ℕ) : ℚ)) = (bins : ℚ) - 1 := by
          have : (1 : ℕ) ≤ bins := hbins
          push_cast [this]
          ring
        nlinarith [mul_comm x (bins : ℚ)]
      have hKlo : ((bins : ℤ) - 1) ≤ ⌊x * (bins : ℚ)⌋ := by
        apply Int.le_floor.mpr
        push_cast
        linarith
      have : bins - 1 ≤ Int.toNat ⌊x * (bins : ℚ)⌋ := by omega
      exact min_eq_right this

/-- Claim-side joint count: the number of positions whose normalised values
fall in bins `i` and `j` of `[0,1]` respectively. -/
def specJoint (bins : ℕ) (image1 image2 : List ℚ) (i j : ℕ) : ℕ :=
  ((minmax image1).zip (minmax image2)).countP
    (fun p => inBinB bins i p.1 && inBinB bins j p.2)

/-- Claim-side marginal count: the number of values of the normalised image
that fall in bin `i` of `[0,1]`. -/
def specMarg (bins : ℕ) (image : List ℚ) (i : ℕ) : ℕ :=
  (minmax image).countP (fun x => inBinB bins i x)

lemma binIdx_decide_eq (bins : ℕ) (hbins : 0 < bins) (x : ℚ)
    (hx0 : 0 ≤ x) (hx1 : x ≤ 1) (i : ℕ) (hi : i < bins) :
    decide (binIdx bins x = some i) = inBinB bins i x := by
  have hiff := binIdx_eq_some_iff bins hbins x hx0 hx1 i hi
  cases hb : inBinB bins i x
  · rw [hb] at hiff
    exact decide_eq_false (fun hc => by simpa using hiff.mp hc)
  · rw [hb] at hiff
    exact decide_eq_true (hiff.mpr rfl)

lemma hist1d_eq_specMarg (bins : ℕ) (hbins : 0 < bins) (img : List ℚ)
    (h : arrMin img < arrMax img) (i : ℕ) (hi : i < bins) :
    hist1d bins (minmax img) i = specMarg bins img i := by
  apply List.countP_congr
  intro x hx
  have hx' := minmax_mem_unit img h x hx
  exact binIdx_decide_eq bins hbins x hx'.1 hx'.2 i hi ▸ Iff.rfl

lemma hist2d_eq_specJoint (bins : ℕ) (hbins : 0 < bins) (img1 img2 : List ℚ)
    (h1 : arrMin img1 < arrMax img1) (h2 : arrMin img2 < arrMax img2)
    (i j : ℕ) (hi : i < bins) (hj : j < bins) :
    hist2d bins (minmax img1) (minmax img2) i j = specJoint bins img1 img2 i j := by
  apply List.countP_congr
  rintro ⟨x, y⟩ hp
  have hmem := List.of_mem_zip hp
  have hx' := minmax_mem_unit img1 h1 x hmem.1
  have hy' := minmax_mem_unit img2 h2 y hmem.2
  show decide (binIdx bins x = some i ∧ binIdx bins y = some j) = true
      ↔ (inBinB bins i x && inBinB bins j y) = true
  rw [Bool.decide_and, binIdx_decide_eq bins hbins x hx'.1 hx'.2 i hi,
    binIdx_decide_eq bins hbins y hy'.1 hy'.2 j hj]

lemma sum_ite_binIdx (bins : ℕ) (hbins : 0 < bins) (x : ℚ)
    (hx0 : 0 ≤ x) (hx1 : x ≤ 1) :
    (∑ i ∈ Finset.range bins, if binIdx bins x = some i then (1 : ℕ) else 0) = 1 := by
  have hk := binIdx_isSome bins x hx0 hx1
  have hkb : min (Int.toNat ⌊x * (bins : ℚ)⌋) (bins - 1) < bins := by
    have := min_le_right (Int.toNat ⌊x * (bins : ℚ)⌋) (bins - 1)
    omega
  rw [Finset.sum_congr rfl (fun i _ => by rw [hk])]
  simp only [Option.some.injEq]
  rw [Finset.sum_ite_eq (Finset.range bins)
    (min (Int.toNat ⌊x * (bins : ℚ)⌋) (bins - 1)) (fun _ => 1)]
  simp [Finset.mem_range.mpr hkb]

lemma histSum_eq_length (bins : ℕ) (hbins : 0 < bins) :
    ∀ l : List ℚ, (∀ y ∈ l, 0 ≤ y ∧ y ≤ 1) → histSum bins l = l.length := by
  intro l
  induction l with
  | nil => intro _; simp [histSum, hist1d]
  | cons x xs ih =>
      intro hl
      have hx := hl x (List.mem_cons_self x xs)
      have hxs : ∀ y ∈ xs, 0 ≤ y ∧ y ≤ 1 :=
        fun y hy => hl y (List.mem_cons_of_mem x hy)
      have step : histSum bins (x :: xs) = histSum bins xs +
          ∑ i ∈ Finset.range bins, if binIdx bins x = some i then 1 else 0 := by
        unfold histSum hist1d
        rw [← Finset.sum_add_distrib]
        refine Finset.sum_congr rfl (fun i _ => ?_)
        simp [List.countP_cons]
      rw [step, ih hxs, sum_ite_binIdx bins hbins x hx.1 hx.2, List.length_cons]

lemma ite_and_eq_mul (P Q : Prop) [Decidable P] [Decidable Q] :
    (if P ∧ Q then (1 : ℕ) else 0) = (if P then 1 else 0) * (if Q then 1 else 0) := by
  by_cases hP : P <;> by_cases hQ : Q <;> simp [hP, hQ]

lemma jointSum_eq_length (bins : ℕ) (hbins : 0 < bins) :
    ∀ a b : List ℚ, (∀ y ∈ a, 0 ≤ y ∧ y ≤ 1) → (∀ y ∈ b, 0 ≤ y ∧ y ≤ 1) →
      jointSum bins a b = (a.zip b).length := by
  intro a
  induction a with
  | nil => intro b _ _; simp [jointSum, hist2d]
  | cons x xs ih =>
      intro b ha hb
      cases b with
      | nil => simp [jointSum, hist2d]
      | cons y ys =>
          have hx := ha x (List.mem_cons_self x xs)
          have hy := hb y (List.mem_cons_self y ys)
          have hxs : ∀ v ∈ xs, 0 ≤ v ∧ v ≤ 1 :=
            fun v hv => ha v (List.mem_cons_of_mem x hv)
          have hys : ∀ v ∈ ys, 0 ≤ v ∧ v ≤ 1 :=
            fun v hv => hb v (List.mem_cons_of_mem y hv)
          have step : jointSum bins (x :: xs) (y :: ys) = jointSum bins xs ys +
              ∑ i ∈ Finset.range bins, ∑ j ∈ Finset.range bins,
                (if binIdx bins x = some i ∧ binIdx bins y = some j
                 then 1 else 0) := by
            unfold jointSum hist2d
            rw [← Finset.sum_add_distrib]
            refine Finset.sum_congr rfl (fun i _ => ?_)
            rw [← Finset.sum_add_distrib]
            refine Finset.sum_congr rfl (fun j _ => ?_)
            simp [List.zip_cons_cons, List.countP_cons]
          have hone : (∑ i ∈ Finset.range bins, ∑ j ∈ Finset.range bins,
              (if binIdx bins x = some i ∧ binIdx bins y = some j
               then (1 : ℕ) else 0)) = 1 := by
            have h1 : ∀ i ∈ Finset.range bins, (∑ j ∈ Finset.range bins,
                (if binIdx bins x = some i ∧ binIdx bins y = some j
                 then (1 : ℕ) else 0))
                = (if binIdx bins x = some i then (1 : ℕ) else 0) *
                  ∑ j ∈ Finset.range bins,
                    (if binIdx bins y = some j then (1 : ℕ) else 0) := by
              intro i _
              rw [Finset.mul_sum]
              exact Finset.sum_congr rfl (fun j _ => ite_and_eq_mul _ _)
            rw [Finset.sum_congr rfl h1, ← Finset.sum_mul,
              sum_ite_binIdx bins hbins x hx.1 hx.2,
              sum_ite_binIdx bins hbins y hy.1 hy.2, one_mul]
          rw [step, ih ys hxs hys, hone, List.zip_cons_cons, List.length_cons]

/-- C3: for non-constant images of equal size, `mutual_information` with 64
bins min-max normalises each image to `[0,1]`, counts the positions falling
in each of the 64×64 joint bins and each of the 64 marginal bins, normalises
the three histograms to probability distributions (their totals all equal
the number of voxels), and returns
`∑ p(i,j)·log₂(p(i,j)/(p1(i)·p2(j)))` over the bin pairs where all three
probabilities are positive. -/
theorem mutual_information_spec (a b : List ℚ)
    (hma : arrMin a < arrMax a) (hmb : arrMin b < arrMax b)
    (hlen : a.length = b.length) :
    mutual_information a b 64 =
      ∑ i ∈ Finset.range 64, ∑ j ∈ Finset.range 64,
        (if 0 < (specJoint 64 a b i j : ℚ) / (a.length : ℚ) ∧
            0 < (specMarg 64 a i : ℚ) / (a.length : ℚ) ∧
            0 < (specMarg 64 b j : ℚ) / (b.length : ℚ) then
          (((specJoint 64 a b i j : ℚ) / (a.length : ℚ) : ℚ) : ℝ) *
            Real.logb 2 (((specJoint 64 a b i j : ℚ) / (a.length : ℚ)) /
              (((specMarg 64 a i : ℚ) / (a.length : ℚ)) *
                ((specMarg 64 b j : ℚ) / (b.length : ℚ))))
        else 0) := by
  have hua := minmax_mem_unit a hma
  have hub := minmax_mem_unit b hmb
  have hNa : histSum 64 (minmax a) = a.length := by
    rw [histSum_eq_length 64 (by norm_num) (minmax a) hua]
    simp [minmax]
  have hNb : histSum 64 (minmax b) = b.length := by
    rw [histSum_eq_length 64 (by norm_num) (minmax b) hub]
    simp [minmax]
  have hN : jointSum 64 (minmax a) (minmax b) = a.length := by
    rw [jointSum_eq_length 64 (by norm_num) (minmax a) (minmax b) hua hub]
    simp [minmax, hlen]
  simp only [mutual_information]
  apply Finset.sum_congr rfl
  intro i hi
  apply Finset.sum_congr rfl
  intro j hj
  rw [Finset.mem_range] at hi hj
  rw [hist2d_eq_specJoint 64 (by norm_num) a b hma hmb i j hi hj,
    hist1d_eq_specMarg 64 (by norm_num) a hma i hi,
    hist1d_eq_specMarg 64 (by norm_num) b hmb j hj,
    hNa, hNb, hN]

/-- Witness for C3 at the non-constant equal-length images `[0, 1, 2]` and
`[1, 0, 2]`. -/
theorem mutual_information_spec_witness :
    (arrMin [(0 : ℚ), 1, 2] < arrMax [(0 : ℚ), 1, 2] ∧
      arrMin [(1 : ℚ), 0, 2] < arrMax [(1 : ℚ), 0, 2] ∧
      ([(0 : ℚ), 1, 2] : List ℚ).length = ([(1 : ℚ), 0, 2] : List ℚ).length) ∧
    mutual_information [(0 : ℚ), 1, 2] [(1 : ℚ), 0, 2] 64 =
      ∑ i ∈ Finset.range 64, ∑ j ∈ Finset.range 64,
        (if 0 < (specJoint 64 [(0 : ℚ), 1, 2] [(1 : ℚ), 0, 2] i j : ℚ)
              / (([(0 : ℚ), 1, 2] : List ℚ).length : ℚ) ∧
            0 < (specMarg 64 [(0 : ℚ), 1, 2] i : ℚ)
              / (([(0 : ℚ), 1, 2] : List ℚ).length : ℚ) ∧
            0 < (specMarg 64 [(1 : ℚ), 0, 2] j : ℚ)
              / (([(1 : ℚ), 0, 2] : List ℚ).length : ℚ) then
          (((specJoint 64 [(0 : ℚ), 1, 2] [(1 : ℚ), 0, 2] i j : ℚ)
              / (([(0 : ℚ), 1, 2] : List ℚ).length : ℚ) : ℚ) : ℝ) *
            Real.logb 2 (((specJoint 64 [(0 : ℚ), 1, 2] [(1 : ℚ), 0, 2] i j : ℚ)
                / (([(0 : ℚ), 1, 2] : List ℚ).length : ℚ)) /
              (((specMarg 64 [(0 : ℚ), 1, 2] i : ℚ)
                  / (([(0 : ℚ), 1, 2] : List ℚ).length : ℚ)) *
                ((specMarg 64 [(1 : ℚ), 0, 2] j : ℚ)
                  / (([(1 : ℚ), 0, 2] : List ℚ).length : ℚ))))
        else 0) :=
  ⟨⟨by decide, by decide, by decide⟩,
    mutual_information_spec [(0 : ℚ), 1, 2] [(1 : ℚ), 0, 2]
      (by decide) (by decide) (by decide)⟩

lemma hist2d_swap (bins : ℕ) (a b : List ℚ) (i j : ℕ) :
    hist2d bins a b i j = hist2d bins b a j i := by
  unfold hist2d
  rw [← List.zip_swap, List.countP_map]
  apply List.countP_congr
  intro p _
  simp only [Function.comp, Prod.fst_swap, Prod.snd_swap, decide_eq_true_eq]
  exact and_comm

lemma jointSum_swap (bins : ℕ) (a b : List ℚ) :
    jointSum bins b a = jointSum bins a b := by
  unfold jointSum
  rw [Finset.sum_comm]
  exact Finset.sum_congr rfl (fun j _ => Finset.sum_congr rfl
    (fun i _ => hist2d_swap bins b a i j))

/-- C10: `mutual_information` is symmetric in its two image arguments (for
all arrays, in particular the non-constant ones): the joint histogram
transposes, the marginals swap roles, and each summand is preserved. -/
theorem mutual_information_symm (image1 image2 : List ℚ) (bins : ℕ) :
    mutual_information image1 image2 bins = mutual_information image2 image1 bins := by
  simp only [mutual_information]
  rw [Finset.sum_comm]
  apply Finset.sum_congr rfl
  intro u _
  apply Finset.sum_congr rfl
  intro v _
  rw [hist2d_swap bins (minmax image2) (minmax image1) u v,
    jointSum_swap bins (minmax image1) (minmax image2)]
  apply if_congr
  · exact ⟨fun ⟨h1, h2, h3⟩ => ⟨h1, h3, h2⟩, fun ⟨h1, h2, h3⟩ => ⟨h1, h3, h2⟩⟩
  · rw [mul_comm
      (((hist1d bins (minmax image1) v : ℚ) : ℝ) / ((histSum bins (minmax image1) : ℚ) : ℝ))
      (((hist1d bins (minmax image2) u : ℚ) : ℝ) / ((histSum bins (minmax image2) : ℚ) : ℝ))]
  · rfl

end Nemo
